import Mathlib

/-!
Verification of the Procrustes repository (preprocessing utilities, generic
least-squares solver, and the k-opt permutation refiner) against its
natural-language specification.

Matrices are embedded as lists of rows (`List (List α)`), mirroring the
numpy 2D arrays of the source.  All arithmetic is exact (`ℚ` for the
combinatorial refiner, an arbitrary linear ordered field elsewhere); the
square root used by the scaling utilities and the pseudo-inverse routine of
the external linear-algebra library are passed in as explicit function
parameters, exactly where the source calls out to numpy/scipy.
-/

namespace Procrustes

/-- A 2D array: a list of rows. -/
abbrev Mat (α : Type) := List (List α)

/-- Number of rows (`array.shape[0]`). -/
def numRows {α : Type} (M : Mat α) : ℕ := M.length

/-- Number of columns (`array.shape[1]`), read off the first row. -/
def numCols {α : Type} (M : Mat α) : ℕ := (M.headD []).length

/-- The shape tuple `array.shape` of a rectangular array. -/
def shape {α : Type} (M : Mat α) : ℕ × ℕ := (numRows M, numCols M)

/-- Rectangularity: every row has the length announced by the shape. -/
def Rect {α : Type} (M : Mat α) : Prop := ∀ r ∈ M, r.length = numCols M

/-- Column `j` of the array, as a list (missing entries default to 0). -/
def colOf {α : Type} [LinearOrderedField α] (M : Mat α) (j : ℕ) : List α :=
  M.map (fun r => r.getD j 0)

/-- Dot product of two equally long lists. -/
def dotList {α : Type} [LinearOrderedField α] (r c : List α) : α :=
  (List.zipWith (· * ·) r c).sum

/-- Matrix product `np.dot`. -/
def matMul {α : Type} [LinearOrderedField α] (A B : Mat α) : Mat α :=
  A.map (fun r => (List.range (numCols B)).map (fun j => dotList r (colOf B j)))

/-- Matrix transpose `array.T`. -/
def transposeM {α : Type} [LinearOrderedField α] (M : Mat α) : Mat α :=
  (List.range (numCols M)).map (fun j => colOf M j)

/-- Entrywise difference of two same-shaped arrays. -/
def matSub {α : Type} [LinearOrderedField α] (A B : Mat α) : Mat α :=
  List.zipWith (fun r s => List.zipWith (fun x y => x - y) r s) A B

/-- Squared Frobenius norm: the sum of the squares of all entries. -/
def frobSq {α : Type} [LinearOrderedField α] (M : Mat α) : α :=
  (M.map (fun r => (r.map (fun x => x * x)).sum)).sum

/-- The identity array `np.identity n`. -/
def identityMat {α : Type} [LinearOrderedField α] (n : ℕ) : Mat α :=
  (List.range n).map (fun i => (List.range n).map (fun j => if i = j then (1 : α) else 0))

/-- Modelled from the spec: `procrustes.utils.compute_error` is imported by
`generic.py` and `kopt.py` but absent from the source tree.  Per the spec,
`frobenius_error(A, B, left=None, right=None)` computes
`‖left·A·right − B‖²` (the squared Frobenius norm of the residual), with the
omitted sides behaving as identities; the third positional argument is the
right-hand transformation `t` and the fourth the optional left-hand `s`. -/
def compute_error {α : Type} [LinearOrderedField α]
    (a b t : Mat α) (s : Option (Mat α)) : α :=
  let x := match s with
    | some sl => matMul (matMul sl a) t
    | none => matMul a t
  frobSq (matSub x b)

/-! ### k-opt refiner (`kopt.py`), over exact rationals -/

/-- The fixed early-stop tolerance `1.0e-8` of `kopt.py`. -/
def koptTol : ℚ := 1 / 100000000

/-- All `r`-permutations drawn from a pool, in the order of
`itertools.permutations`: first elements cycle through the pool in order. -/
def kpermsAux : ℕ → List ℕ → List (List ℕ)
  | 0, _ => [[]]
  | r + 1, pool => pool.flatMap (fun x => (kpermsAux r (pool.erase x)).map (fun l => x :: l))

/-- `itertools.permutations(np.arange(n), r=k)` as a list of index lists. -/
def kperms (n k : ℕ) : List (List ℕ) := kpermsAux k (List.range n)

/-- `sorted(perm)`. -/
def sortNat (l : List ℕ) : List ℕ := List.insertionSort (· ≤ ·) l

/-- The index re-mapping performed by the fancy assignment
`x[comb] = x[perm]` (with `comb = sorted(perm)`): position `j` receives the
old position `sigmaOf perm j`. -/
def sigmaOf (perm : List ℕ) (j : ℕ) : ℕ :=
  let comb := sortNat perm
  if comb.indexOf j < comb.length then perm.getD (comb.indexOf j) j else j

/-- `perm_p = np.copy(p0); perm_p[:, comb] = perm_p[:, perm]`:
reorder the columns named by `sorted(perm)` to hold the columns named by
`perm`. -/
def applyColsPerm {α : Type} [LinearOrderedField α] (p : Mat α) (perm : List ℕ) : Mat α :=
  p.map (fun row => (List.range row.length).map (fun j => row.getD (sigmaOf perm j) 0))

/-- `perm_p = np.copy(p); perm_p[comb, :] = perm_p[perm, :]`:
reorder the rows named by `sorted(perm)` to hold the rows named by `perm`. -/
def applyRowsPerm {α : Type} [LinearOrderedField α] (p : Mat α) (perm : List ℕ) : Mat α :=
  (List.range p.length).map (fun i => p.getD (sigmaOf perm i) [])

/-- Result of one pass of the single-sided scan
(`for perm in it.permutations(...)` inside the `while` loop):
the possibly-updated candidate, the stored error, the `search` flag, whether
the early `return` fired, the list of evaluated candidate errors tagged with
acceptance, and the accepted column-permutations in order. -/
structure ScanRes where
  early : Bool
  p : Mat ℚ
  e : ℚ
  search : Bool
  trace : List (ℚ × Bool)
  moves : List (List ℕ)

/-- One pass of `kopt_heuristic_single`'s `for` loop.  A candidate is built
for every enumerated `perm` different from its sorted version, evaluated with
`fun`, accepted exactly on strict improvement, and the pass (indeed the whole
function) returns at once when an accepted error is `≤ 1.0e-8`. -/
def scanCols (f : Mat ℚ → ℚ) : List (List ℕ) → Mat ℚ → ℚ → Bool → ScanRes
  | [], p, e, s => ⟨false, p, e, s, [], []⟩
  | perm :: rest, p, e, s =>
    if perm = sortNat perm then scanCols f rest p e s
    else
      let pp := applyColsPerm p perm
      let pe := f pp
      if pe < e then
        if pe ≤ koptTol then ⟨true, pp, pe, true, [(pe, true)], [perm]⟩
        else
          let r := scanCols f rest pp pe true
          ⟨r.early, r.p, r.e, r.search, (pe, true) :: r.trace, perm :: r.moves⟩
      else
        let r := scanCols f rest p e s
        ⟨r.early, r.p, r.e, r.search, (pe, false) :: r.trace, r.moves⟩

/-- The `while search:` loop of `kopt_heuristic_single`, with explicit fuel
(`none` when the fuel ran out before the loop finished).  Also returns the
concatenated evaluation trace and the accepted moves. -/
def loopS (f : Mat ℚ → ℚ) (perms : List (List ℕ)) :
    ℕ → Mat ℚ → ℚ → Option (Mat ℚ × ℚ) × List (ℚ × Bool) × List (List ℕ)
  | 0, _, _ => (none, [], [])
  | fuel + 1, p, e =>
    let r := scanCols f perms p e false
    if r.early then (some (r.p, r.e), r.trace, r.moves)
    else if r.search then
      let rec' := loopS f perms fuel r.p r.e
      (rec'.1, r.trace ++ rec'.2.1, r.moves ++ rec'.2.2)
    else (some (r.p, r.e), r.trace, r.moves)

/-- `kopt_heuristic_single(fun, p0, k)` from `kopt.py`.  Validation mirrors
the source: `ValueError` when `k < 2` (the `isinstance(k, int)` test is
subsumed by the type of `k`), when `p0` is not square, and when `k` exceeds
the number of rows of `p0`; all three checks precede the search.  The search
loop itself carries explicit fuel; `.ok none` means the fuel was exhausted. -/
def kopt_heuristic_single (f : Mat ℚ → ℚ) (p0 : Mat ℚ) (k : ℕ) (fuel : ℕ) :
    Except String (Option (Mat ℚ × ℚ)) :=
  if k < 2 then .error "Argument k must be a integer greater than 2."
  else if numRows p0 ≠ numCols p0 then .error "Argument p0 should be a square array."
  else if k > numRows p0 then .error "Argument k should be smaller than p0 rows."
  else .ok (loopS f (kperms (numRows p0) k) fuel p0 (f p0)).1

/-- Result of the double-sided scan: final pair, stored error, evaluation
trace and accepted joint moves; `brk` records that the inner `break` fired. -/
structure DScanRes where
  brk : Bool
  p1 : Mat ℚ
  p2 : Mat ℚ
  e : ℚ
  trace : List (ℚ × Bool)
  moves : List (List ℕ × List ℕ)

/-- The inner `for perm2 in it.permutations(np.arange(m), r=k)` loop of
`kopt_heuristic_double`, for a fixed `perm1`.  The candidate applies the row
reorderings `perm1` and `perm2` simultaneously to the current `p1` and `p2`;
the pair is skipped only when both are in sorted (identity) order; the
candidate error is `compute_error(b, a, perm_p2, perm_p1.T)` — note the
swapped roles of `a` and `b` relative to the initial error; `break` (on an
accepted error `≤ 1.0e-8`) stops the inner loop only. -/
def scanInner (a b : Mat ℚ) (perm1 : List ℕ) :
    List (List ℕ) → Mat ℚ → Mat ℚ → ℚ → DScanRes
  | [], p1, p2, e => ⟨false, p1, p2, e, [], []⟩
  | perm2 :: rest, p1, p2, e =>
    if perm1 = sortNat perm1 ∧ perm2 = sortNat perm2 then
      scanInner a b perm1 rest p1 p2 e
    else
      let pp1 := applyRowsPerm p1 perm1
      let pp2 := applyRowsPerm p2 perm2
      let pe := compute_error b a pp2 (some (transposeM pp1))
      if pe < e then
        if pe ≤ koptTol then ⟨true, pp1, pp2, pe, [(pe, true)], [(perm1, perm2)]⟩
        else
          let r := scanInner a b perm1 rest pp1 pp2 pe
          ⟨r.brk, r.p1, r.p2, r.e, (pe, true) :: r.trace, (perm1, perm2) :: r.moves⟩
      else
        let r := scanInner a b perm1 rest p1 p2 e
        ⟨r.brk, r.p1, r.p2, r.e, (pe, false) :: r.trace, r.moves⟩

/-- The outer `for perm1 in it.permutations(np.arange(n), r=k)` loop of
`kopt_heuristic_double`.  There is no `while` loop: a single pass is made,
and an inner `break` does not stop the outer iteration. -/
def scanOuter (a b : Mat ℚ) (perms2 : List (List ℕ)) :
    List (List ℕ) → Mat ℚ → Mat ℚ → ℚ → DScanRes
  | [], p1, p2, e => ⟨false, p1, p2, e, [], []⟩
  | perm1 :: rest, p1, p2, e =>
    let r := scanInner a b perm1 perms2 p1 p2 e
    let r' := scanOuter a b perms2 rest r.p1 r.p2 r.e
    ⟨r'.brk, r'.p1, r'.p2, r'.e, r.trace ++ r'.trace, r.moves ++ r'.moves⟩

/-- `kopt_heuristic_double(a, b, p1, p2, k)` from `kopt.py`.  Validation
mirrors the source exactly: only `k < 2` and `a.shape != b.shape` are
checked; there is no squareness check on `p1`/`p2` and no check that `k` is
at most the dimensions (when `k > n` the permutation enumeration is simply
empty).  The initial error is `compute_error(a, b, p2, p1.T)` while the
candidates are scored with `a` and `b` interchanged, as in the source. -/
def kopt_heuristic_double (a b : Mat ℚ) (p1 p2 : Option (Mat ℚ)) (k : ℕ) :
    Except String (Mat ℚ × Mat ℚ × ℚ) :=
  if k < 2 then .error "Argument k must be a integer greater than 2."
  else if shape a ≠ shape b then .error "Argument b should have same shape as a."
  else
    let n := numRows a
    let m := numCols a
    let q1 := p1.getD (identityMat n)
    let q2 := p2.getD (identityMat m)
    let e0 := compute_error a b q2 (some (transposeM q1))
    let r := scanOuter a b (kperms m k) (kperms n k) q1 q2 e0
    .ok (r.p1, r.p2, r.e)

/-! ### Derived views of the refiner runs -/

/-- The errors of the accepted candidates, in acceptance order. -/
def acceptedOf (tr : List (ℚ × Bool)) : List ℚ := (tr.filter (fun x => x.2)).map (fun x => x.1)

/-- Whether a refiner call produced a final result (validation passed and the
fuel sufficed). -/
def resultReady {β : Type} : Except String (Option β) → Bool
  | .ok (some _) => true
  | _ => false

/-- Whether a refiner call raised a `ValueError`. -/
def isError {β : Type} : Except String β → Bool
  | .error _ => true
  | .ok _ => false

/-- Reindex the columns of `p` through the index list `π`:
entry `(i, j)` becomes entry `(i, π j)` of `p`. -/
def reindexBy (p : Mat ℚ) (π : List ℕ) : Mat ℚ :=
  p.map (fun r => (List.range r.length).map (fun j => r.getD (π.getD j 0) 0))

/-- The objective values over all column reindexings of `p0`: every matrix
the single-sided refiner can ever hold is one of these. -/
def valuesOn (f : Mat ℚ → ℚ) (p0 : Mat ℚ) : List ℚ :=
  ((List.range (numRows p0)).permutations).map (fun π => f (reindexBy p0 π))

/-- Fuel sufficient for the single-sided refiner: one pass per distinct
objective value. -/
def koptBound (f : Mat ℚ → ℚ) (p0 : Mat ℚ) : ℕ := (valuesOn f p0).dedup.length

/-- The permutation-matrix invariant of the spec: a square 0/1 matrix whose
row sums and column sums are all 1. -/
def IsPermMat (n : ℕ) (M : Mat ℚ) : Prop :=
  M.length = n ∧ (∀ r ∈ M, r.length = n) ∧
  (∀ r ∈ M, ∀ x ∈ r, x = 0 ∨ x = 1) ∧
  (∀ r ∈ M, r.sum = 1) ∧ (∀ j, j < n → (colOf M j).sum = 1)

instance (n : ℕ) (M : Mat ℚ) : Decidable (IsPermMat n M) := by
  unfold IsPermMat
  infer_instance

/-- `l` is a strictly decreasing chain starting below `e`. -/
def decreasingFrom (e : ℚ) (l : List ℚ) : Prop := List.Chain' (· > ·) (e :: l)

/-! ### Preprocessing utilities (`utils.py`) -/

/-- Absolute row sum `sum(np.absolute(array[i, :]))`. -/
def rowAbsSum {α : Type} [LinearOrderedField α] (r : List α) : α := (r.map (fun x => |x|)).sum

/-- Absolute column sum `sum(np.absolute(array[:, j]))`. -/
def colAbsSum {α : Type} [LinearOrderedField α] (M : Mat α) (j : ℕ) : α :=
  (M.map (fun r => |r.getD j 0|)).sum

/-- The row-deletion loop of `hide_zero_padding`:
`for i in range(m)[::-1]: if sum(abs(row i)) < tol: delete row i`.
The indices are processed in decreasing order, so each deletion leaves the
not-yet-visited (smaller) indices untouched. -/
def eraseRowLoop {α : Type} [LinearOrderedField α] (tol : α) : List ℕ → Mat α → Mat α
  | [], M => M
  | i :: rest, M =>
    eraseRowLoop tol rest (if rowAbsSum (M.getD i []) < tol then M.eraseIdx i else M)

/-- The column-deletion loop of `hide_zero_padding`, likewise from the last
column index down. -/
def eraseColLoop {α : Type} [LinearOrderedField α] (tol : α) : List ℕ → Mat α → Mat α
  | [], M => M
  | j :: rest, M =>
    eraseColLoop tol rest
      (if colAbsSum M j < tol then M.map (fun r => r.eraseIdx j) else M)

/-- `hide_zero_padding(array, tol=1e-8)` from `utils.py`: first the row loop
over `range(m)[::-1]`, then the column loop over `range(n)[::-1]`, with `m, n`
read from the original shape. -/
def hide_zero_padding {α : Type} [LinearOrderedField α] (tol : α) (M : Mat α) : Mat α :=
  eraseColLoop tol ((List.range (numCols M)).reverse)
    (eraseRowLoop tol ((List.range (numRows M)).reverse) M)

/-- The `1.e-8` default tolerance, exactly. -/
def qtol : ℚ := 1 / 100000000

/-- The net effect of `hide_zero_padding` stated without loops: keep the
rows whose absolute sum is at least `tol`, then keep the columns of the
row-filtered matrix whose absolute sum is at least `tol`. -/
def filterRowsCols {α : Type} [LinearOrderedField α] (tol : α) (M : Mat α) : Mat α :=
  let M1 := M.filter (fun r => !decide (rowAbsSum r < tol))
  M1.map (fun r =>
    ((List.range (numCols M)).filter (fun j => !decide (colAbsSum M1 j < tol))).map
      (fun j => r.getD j 0))

/-- `y` arises from `x` by appending `dc` zero columns on the right and
some all-zero rows at the bottom — the shape every padded output of
`zero_padding` takes. -/
def PaddedFrom {α : Type} [LinearOrderedField α] (y x : Mat α) : Prop :=
  ∃ dc Z, (∀ r ∈ Z, ∀ v ∈ r, v = (0 : α)) ∧
    y = x.map (fun r => r ++ List.replicate dc (0 : α)) ++ Z

/-- Zero-pad `M` at the bottom up to `t` rows (a no-op when `M` already has
at least `t` rows), as done by `np.concatenate((x, zeros), axis=0)`. -/
def padRowsTo {α : Type} [LinearOrderedField α] (M : Mat α) (t : ℕ) : Mat α :=
  if numRows M < t then M ++ List.replicate (t - numRows M) (List.replicate (numCols M) (0 : α))
  else M

/-- Zero-pad `M` on the right up to `t` columns (a no-op when `M` already has
at least `t` columns), as done by `np.concatenate((x, zeros), axis=1)`. -/
def padColsTo {α : Type} [LinearOrderedField α] (M : Mat α) (t : ℕ) : Mat α :=
  if numCols M < t then M.map (fun r => r ++ List.replicate (t - numCols M) (0 : α))
  else M

/-- `zero_padding(x1, x2, row, column, square)` from `utils.py`.  The square
branch pads both arrays to `max(n1, n2, m1, m2)` (rows first, then columns);
afterwards, equal shapes pass through unchanged, otherwise the `row and
column` / `row` / `column` branches pad the smaller array along the selected
axes; with no axis selected and unequal shapes a `ValueError` is raised
(`none`).  The legacy `print` statement has no semantic effect. -/
def zero_padding {α : Type} [LinearOrderedField α]
    (x1 x2 : Mat α) (row column square : Bool) : Option (Mat α × Mat α) :=
  let nd := max (max (numRows x1) (numRows x2)) (max (numCols x1) (numCols x2))
  let y1 := if square then padColsTo (padRowsTo x1 nd) nd else x1
  let y2 := if square then padColsTo (padRowsTo x2 nd) nd else x2
  if shape y1 = shape y2 then some (y1, y2)
  else if row ∧ column then
    let z1 := padRowsTo y1 (numRows y2)
    let z2 := padRowsTo y2 (numRows y1)
    some (padColsTo z1 (numCols z2), padColsTo z2 (numCols z1))
  else if row then some (padRowsTo y1 (numRows y2), padRowsTo y2 (numRows y1))
  else if column then some (padColsTo y1 (numCols y2), padColsTo y2 (numCols y1))
  else none

/-- `frobenius_norm(array) = np.sqrt((array ** 2.).sum())`; the square root
of the external numerics library is passed in as `sqrtF`. -/
def frobenius_norm {α : Type} [LinearOrderedField α] (sqrtF : α → α) (M : Mat α) : α :=
  sqrtF (frobSq M)

/-- `scale_array(array_a, array_b)` from `utils.py`.  With `array_b = None`
it divides by the Frobenius norm and returns the scaling `1/norm`; with a
reference it rescales by `‖b‖/‖a‖`.  The source performs no zero-norm check:
the divisions happen unconditionally (in floating point they produce
`nan`/`inf` junk values; here division by zero produces the field's junk
value `0`), and no error is ever raised. -/
def scale_array {α : Type} [LinearOrderedField α]
    (sqrtF : α → α) (array_a : Mat α) (array_b : Option (Mat α)) : Mat α × α :=
  match array_b with
  | some bb =>
    let fna := frobenius_norm sqrtF array_a
    let fnb := frobenius_norm sqrtF bb
    let s := fnb / fna
    (array_a.map (fun r => r.map (fun x => s * x)), s)
  | none =>
    let fn := frobenius_norm sqrtF array_a
    (array_a.map (fun r => r.map (fun x => x / fn)), 1 / fn)

/-! ### Spec-modelled preprocessing pipeline and the generic solver -/

/-- The `1.0e-8` near-zero threshold used by the unpadding options. -/
def padTol {α : Type} [LinearOrderedField α] : α := 1 / 100000000

/-- Modelled from the spec: trailing-row trimming used by the `unpad_row`
option of `setup_input_arrays` (absent from the source tree): removes
trailing rows whose entries all satisfy `|value| ≤ 1e-8`, scanning from the
last row inward and stopping at the first other row. -/
def trimTrailingRows {α : Type} [LinearOrderedField α] (M : Mat α) : Mat α :=
  (M.reverse.dropWhile (fun r => r.all (fun x => decide (|x| ≤ padTol)))).reverse

/-- Modelled from the spec: trailing-column trimming used by the
`unpad_col` option of `setup_input_arrays` (absent from the source tree). -/
def trimTrailingCols {α : Type} [LinearOrderedField α] (M : Mat α) : Mat α :=
  let keep := ((List.range (numCols M)).reverse.dropWhile
    (fun j => (M.map (fun r => r.getD j 0)).all (fun x => decide (|x| ≤ padTol)))).length
  M.map (fun r => r.take keep)

/-- Mean of column `j` (the `j`-th component of the centroid). -/
def colMean {α : Type} [LinearOrderedField α] (M : Mat α) (j : ℕ) : α :=
  (colOf M j).sum / (numRows M : α)

/-- Modelled from the spec: the `translate` option of `setup_input_arrays`
(absent from the source tree) subtracts the column-wise mean from every
row. -/
def translateToOrigin {α : Type} [LinearOrderedField α] (M : Mat α) : Mat α :=
  M.map (fun r => (List.range r.length).map (fun j => r.getD j 0 - colMean M j))

/-- Modelled from the spec: the `weight` option of `setup_input_arrays`
(absent from the source tree) multiplies row `i` of `A` by `weight[i]`,
i.e. forms `diag(weight)·A`. -/
def applyWeights {α : Type} [LinearOrderedField α] (w : List α) (M : Mat α) : Mat α :=
  List.zipWith (fun wi r => r.map (fun x => wi * x)) w M

/-- Modelled from the spec: the `scale` option of `setup_input_arrays`
(absent from the source tree) divides by the Frobenius norm. -/
def scaleToUnit {α : Type} [LinearOrderedField α] (sqrtF : α → α) (M : Mat α) : Mat α :=
  M.map (fun r => r.map (fun x => x / frobenius_norm sqrtF M))

/-- Modelled from the spec: `procrustes.utils.setup_input_arrays` is imported
by `generic.py` but absent from the source tree.  Per the spec the order of
operations is: 1) unpad zero rows/columns, 2) translate to the origin,
3) weight the rows of `A`, 4) scale to unit norm, 5) zero-pad to a common
shape. -/
def setup_input_arrays {α : Type} [LinearOrderedField α] (sqrtF : α → α) (a b : Mat α)
    (unpad_col unpad_row pad translate scale : Bool) (weight : Option (List α)) :
    Mat α × Mat α :=
  let a1 := if unpad_row then trimTrailingRows a else a
  let b1 := if unpad_row then trimTrailingRows b else b
  let a2 := if unpad_col then trimTrailingCols a1 else a1
  let b2 := if unpad_col then trimTrailingCols b1 else b1
  let a3 := if translate then translateToOrigin a2 else a2
  let b3 := if translate then translateToOrigin b2 else b2
  let a4 := match weight with
    | some w => applyWeights w a3
    | none => a3
  let a5 := if scale then scaleToUnit sqrtF a4 else a4
  let b5 := if scale then scaleToUnit sqrtF b3 else b3
  if pad then (zero_padding a5 b5 true true false).getD (a5, b5) else (a5, b5)

/-- Modelled from the spec: `procrustes.utils.ProcrustesResult`, the uniform
immutable result record `{error, new_a, new_b, t, s}` built once per solver
call. -/
structure ProcrustesResult (α : Type) where
  error : α
  new_a : Mat α
  new_b : Mat α
  t : Mat α
  s : Option (Mat α)
deriving DecidableEq

/-- The four Penrose conditions (with the shape of the candidate inverse):
`G` is the Moore-Penrose pseudo-inverse of the `n × n` matrix `A`. -/
def IsMoorePenrose {α : Type} [LinearOrderedField α] (n : ℕ) (A G : Mat α) : Prop :=
  G.length = n ∧ (∀ r ∈ G, r.length = n) ∧
  matMul (matMul A G) A = A ∧ matMul (matMul G A) G = G ∧
  transposeM (matMul A G) = matMul A G ∧ transposeM (matMul G A) = matMul G A

/-- The preprocessed pair `(new_a, new_b)` computed at the top of
`generic`. -/
def genericPre {α : Type} [LinearOrderedField α] (sqrtF : α → α) (a b : Mat α)
    (pad translate scale unpad_col unpad_row : Bool) (weight : Option (List α)) :
    Mat α × Mat α :=
  setup_input_arrays sqrtF a b unpad_col unpad_row pad translate scale weight

/-- `generic(a, b, ...)` from `generic.py`.  After preprocessing, the
pseudo-inverse of `new_a.T @ new_a` is computed by one of the two external
drivers (`scipy.linalg.pinv` for `"gesvd"`, `np.linalg.pinv(·, hermitian=True)`
for `"gesdd"`, both passed in as functions); any other driver name raises a
`ValueError`.  Then `array_x = a_inv @ new_a.T @ new_b`, the one-sided error
is `compute_error(new_a, new_b, array_x)`, and the `ProcrustesResult` is
assembled. -/
def generic {α : Type} [LinearOrderedField α] (sqrtF : α → α)
    (pinv_gesvd pinv_gesdd : Mat α → Mat α) (a b : Mat α)
    (pad translate scale unpad_col unpad_row : Bool) (weight : Option (List α))
    (lapack_driver : String) : Except String (ProcrustesResult α) :=
  let pre := genericPre sqrtF a b pad translate scale unpad_col unpad_row weight
  let new_a := pre.1
  let new_b := pre.2
  if lapack_driver = "gesvd" then
    let a_inv := pinv_gesvd (matMul (transposeM new_a) new_a)
    let array_x := matMul (matMul a_inv (transposeM new_a)) new_b
    .ok ⟨compute_error new_a new_b array_x none, new_a, new_b, array_x, none⟩
  else if lapack_driver = "gesdd" then
    let a_inv := pinv_gesdd (matMul (transposeM new_a) new_a)
    let array_x := matMul (matMul a_inv (transposeM new_a)) new_b
    .ok ⟨compute_error new_a new_b array_x none, new_a, new_b, array_x, none⟩
  else .error "The lapack_driver is not gesvd or gesdd."

/-- The `Matrix`-valued view of a list matrix, for transfer of algebraic
facts. -/
def toM {α : Type} [LinearOrderedField α] (m n : ℕ) (M : Mat α) : Matrix (Fin m) (Fin n) α :=
  Matrix.of (fun i j => (M.getD i.val []).getD j.val 0)

/-! ## Theorems -/

/-! ### List helpers -/

lemma sum_map_getD {M : Type} [AddCommMonoid M] {β : Type} (l : List β) (g : β → M) (d : β) :
    (l.map g).sum = ∑ i ∈ Finset.range l.length, g (l.getD i d) := by
  induction l with
  | nil => simp
  | cons x t ih =>
    simp [Finset.sum_range_succ', ih, add_comm]

lemma list_sum_getD {M : Type} [AddCommMonoid M] (l : List M) :
    l.sum = ∑ i ∈ Finset.range l.length, l.getD i 0 := by
  simpa using sum_map_getD l id 0

lemma sum_map_range {M : Type} [AddCommMonoid M] (g : ℕ → M) (n : ℕ) :
    ((List.range n).map g).sum = ∑ j ∈ Finset.range n, g j := by
  rw [sum_map_getD ((List.range n)) g 0]
  simp only [List.length_range]
  refine Finset.sum_congr rfl (fun j hj => ?_)
  rw [List.getD_eq_getElem _ _ (by simpa using Finset.mem_range.1 hj)]
  simp

lemma getD_map_range {β : Type} (g : ℕ → β) {n j : ℕ} (h : j < n) (d : β) :
    ((List.range n).map g).getD j d = g j := by
  rw [List.getD_eq_getElem _ _ (by simpa using h)]
  simp

lemma map_getD_range_self {β : Type} (l : List β) (d : β) :
    (List.range l.length).map (fun i => l.getD i d) = l := by
  refine List.ext_getElem (by simp) (fun n h1 h2 => ?_)
  simp only [List.getElem_map, List.getElem_range]
  exact List.getD_eq_getElem l d h2

lemma decreasingFrom_cons {e x : ℚ} {l : List ℚ} :
    decreasingFrom e (x :: l) ↔ e > x ∧ decreasingFrom x l := by
  unfold decreasingFrom
  exact List.chain'_cons

lemma decreasingFrom_append {e : ℚ} {l1 l2 : List ℚ} (h1 : decreasingFrom e l1)
    (h2 : decreasingFrom (l1.foldl (fun _ x => x) e) l2) : decreasingFrom e (l1 ++ l2) := by
  induction l1 generalizing e with
  | nil => simpa using h2
  | cons x t ih =>
    rw [decreasingFrom_cons] at h1
    rw [List.cons_append, decreasingFrom_cons]
    exact ⟨h1.1, ih h1.2 (by simpa using h2)⟩

lemma decreasingFrom_foldl_le {e : ℚ} {l : List ℚ} (h : decreasingFrom e l) :
    l.foldl (fun _ x => x) e ≤ e := by
  induction l generalizing e with
  | nil => simp
  | cons x t ih =>
    rw [decreasingFrom_cons] at h
    calc (x :: t).foldl (fun _ x => x) e = t.foldl (fun _ x => x) x := by simp
    _ ≤ x := ih h.2
    _ ≤ e := le_of_lt h.1

/-! ### The column/row re-mapping `sigmaOf` is a bijection below `n` -/

lemma sortNat_perm (l : List ℕ) : List.Perm (sortNat l) l := List.perm_insertionSort _ _

lemma sigmaOf_of_mem {perm : List ℕ} {j : ℕ} (h : j ∈ sortNat perm) :
    sigmaOf perm j = perm.getD ((sortNat perm).indexOf j) j := by
  unfold sigmaOf
  simp only [if_pos (List.indexOf_lt_length.2 h)]

lemma sigmaOf_of_not_mem {perm : List ℕ} {j : ℕ} (h : j ∉ sortNat perm) :
    sigmaOf perm j = j := by
  unfold sigmaOf
  simp only [if_neg (fun hc => h (List.indexOf_lt_length.1 hc))]

lemma sigmaOf_mem_perm {perm : List ℕ} {j : ℕ} (h : j ∈ sortNat perm) :
    sigmaOf perm j ∈ perm := by
  rw [sigmaOf_of_mem h]
  have hlt := List.indexOf_lt_length.2 h
  have hlen : (sortNat perm).length = perm.length := (sortNat_perm perm).length_eq
  rw [List.getD_eq_getElem _ _ (hlen ▸ hlt)]
  exact List.getElem_mem _

lemma sigmaOf_lt {perm : List ℕ} {n : ℕ} (hmem : ∀ x ∈ perm, x < n) {j : ℕ} (hj : j < n) :
    sigmaOf perm j < n := by
  by_cases h : j ∈ sortNat perm
  · exact hmem _ (sigmaOf_mem_perm h)
  · rw [sigmaOf_of_not_mem h]
    exact hj

lemma sigmaOf_injective {perm : List ℕ} (hnd : perm.Nodup) :
    Function.Injective (sigmaOf perm) := by
  intro a b hab
  have hlen : (sortNat perm).length = perm.length := (sortNat_perm perm).length_eq
  by_cases ha : a ∈ sortNat perm <;> by_cases hb : b ∈ sortNat perm
  · rw [sigmaOf_of_mem ha, sigmaOf_of_mem hb] at hab
    have hia := List.indexOf_lt_length.2 ha
    have hib := List.indexOf_lt_length.2 hb
    rw [List.getD_eq_getElem _ _ (hlen ▸ hia), List.getD_eq_getElem _ _ (hlen ▸ hib)] at hab
    have hfin : (⟨(sortNat perm).indexOf a, hlen ▸ hia⟩ : Fin perm.length) =
        ⟨(sortNat perm).indexOf b, hlen ▸ hib⟩ := by
      refine (hnd.get_inj_iff).1 ?_
      simpa [List.get_eq_getElem] using hab
    have heq : (sortNat perm).indexOf a = (sortNat perm).indexOf b :=
      congrArg Fin.val hfin
    have h1 := List.indexOf_get hia
    have h2 := List.indexOf_get hib
    rw [← h1, ← h2]
    simp only [List.get_eq_getElem, heq]
  · exfalso
    have hmem := sigmaOf_mem_perm ha
    rw [hab, sigmaOf_of_not_mem hb] at hmem
    exact hb (((sortNat_perm perm).mem_iff).2 hmem)
  · exfalso
    have hmem := sigmaOf_mem_perm hb
    rw [← hab, sigmaOf_of_not_mem ha] at hmem
    exact ha (((sortNat_perm perm).mem_iff).2 hmem)
  · rwa [sigmaOf_of_not_mem ha, sigmaOf_of_not_mem hb] at hab

lemma sum_reindex_sigma {M : Type} [AddCommMonoid M] (g : ℕ → M) (n : ℕ) (σ : ℕ → ℕ)
    (hlt : ∀ j < n, σ j < n) (hinj : Function.Injective σ) :
    ∑ j ∈ Finset.range n, g (σ j) = ∑ j ∈ Finset.range n, g j := by
  have himg : (Finset.range n).image σ = Finset.range n := by
    refine Finset.eq_of_subset_of_card_le (fun x hx => ?_) ?_
    · simp only [Finset.mem_image] at hx
      obtain ⟨j, hj, rfl⟩ := hx
      exact Finset.mem_range.2 (hlt j (Finset.mem_range.1 hj))
    · rw [Finset.card_image_of_injOn (hinj.injOn)]
  calc ∑ j ∈ Finset.range n, g (σ j)
      = ∑ x ∈ (Finset.range n).image σ, g x :=
        (Finset.sum_image (fun x _ y _ h => hinj h)).symm
    _ = ∑ j ∈ Finset.range n, g j := by rw [himg]

/-! ### Enumerated k-permutations are duplicate-free index lists -/

lemma kpermsAux_sound : ∀ {r : ℕ} {pool : List ℕ} {l : List ℕ}, pool.Nodup →
    l ∈ kpermsAux r pool → l.Nodup ∧ l ⊆ pool ∧ l.length = r := by
  intro r
  induction r with
  | zero =>
    intro pool l _ hl
    simp only [kpermsAux, List.mem_singleton] at hl
    subst hl
    simp
  | succ r ih =>
    intro pool l hpool hl
    simp only [kpermsAux, List.mem_flatMap, List.mem_map] at hl
    obtain ⟨x, hx, t, ht, rfl⟩ := hl
    obtain ⟨hnd, hsub, hlen⟩ := ih (hpool.erase x) ht
    have hxt : x ∉ t := fun hc => ((hpool.mem_erase_iff).1 (hsub hc)).1 rfl
    refine ⟨List.nodup_cons.2 ⟨hxt, hnd⟩, ?_, by simp [hlen]⟩
    intro y hy
    rcases List.mem_cons.1 hy with rfl | hy
    · exact hx
    · exact List.erase_subset _ _ (hsub hy)

lemma kperms_sound {n k : ℕ} {l : List ℕ} (h : l ∈ kperms n k) :
    l.Nodup ∧ (∀ x ∈ l, x < n) ∧ l.length = k := by
  obtain ⟨hnd, hsub, hlen⟩ := kpermsAux_sound (List.nodup_range n) h
  exact ⟨hnd, fun x hx => List.mem_range.1 (hsub hx), hlen⟩

/-! ### The fancy-assignment moves preserve the permutation-matrix invariant -/

lemma applyColsPerm_isPermMat {n : ℕ} {M : Mat ℚ} {perm : List ℕ} (hM : IsPermMat n M)
    (hnd : perm.Nodup) (hmem : ∀ x ∈ perm, x < n) : IsPermMat n (applyColsPerm M perm) := by
  obtain ⟨hlen, hrow, hbin, hrsum, hcsum⟩ := hM
  have hlt : ∀ j < n, sigmaOf perm j < n := fun j hj => sigmaOf_lt hmem hj
  have hinj : Function.Injective (sigmaOf perm) := sigmaOf_injective hnd
  refine ⟨by simp [applyColsPerm, hlen], ?_, ?_, ?_, ?_⟩
  · intro r' hr'
    simp only [applyColsPerm, List.mem_map] at hr'
    obtain ⟨r, hr, rfl⟩ := hr'
    simp [hrow r hr]
  · intro r' hr' x hx
    simp only [applyColsPerm, List.mem_map] at hr'
    obtain ⟨r, hr, rfl⟩ := hr'
    simp only [List.mem_map, List.mem_range] at hx
    obtain ⟨j, hj, rfl⟩ := hx
    rw [hrow r hr] at hj
    have hs : sigmaOf perm j < r.length := by rw [hrow r hr]; exact hlt j hj
    rw [List.getD_eq_getElem _ _ hs]
    exact hbin r hr _ (List.getElem_mem _)
  · intro r' hr'
    simp only [applyColsPerm, List.mem_map] at hr'
    obtain ⟨r, hr, rfl⟩ := hr'
    rw [hrow r hr, sum_map_range,
      sum_reindex_sigma (fun i => r.getD i 0) n (sigmaOf perm) hlt hinj]
    have := list_sum_getD r
    rw [hrow r hr] at this
    rw [← this, hrsum r hr]
  · intro j hj
    have hcol : colOf (applyColsPerm M perm) j = colOf M (sigmaOf perm j) := by
      unfold colOf applyColsPerm
      rw [List.map_map]
      refine List.map_congr_left (fun r hr => ?_)
      simp only [Function.comp]
      exact getD_map_range _ (by rw [hrow r hr]; exact hj) _
    rw [hcol]
    exact hcsum _ (hlt j hj)

lemma applyRowsPerm_isPermMat {n : ℕ} {M : Mat ℚ} {perm : List ℕ} (hM : IsPermMat n M)
    (hnd : perm.Nodup) (hmem : ∀ x ∈ perm, x < n) : IsPermMat n (applyRowsPerm M perm) := by
  obtain ⟨hlen, hrow, hbin, hrsum, hcsum⟩ := hM
  have hlt : ∀ j < n, sigmaOf perm j < n := fun j hj => sigmaOf_lt hmem hj
  have hinj : Function.Injective (sigmaOf perm) := sigmaOf_injective hnd
  have hrows : ∀ r' ∈ applyRowsPerm M perm, r' ∈ M := by
    intro r' hr'
    simp only [applyRowsPerm, List.mem_map, List.mem_range] at hr'
    obtain ⟨i, hi, rfl⟩ := hr'
    rw [hlen] at hi
    have hs : sigmaOf perm i < M.length := by rw [hlen]; exact hlt i hi
    rw [List.getD_eq_getElem _ _ hs]
    exact List.getElem_mem _
  refine ⟨by simp [applyRowsPerm, hlen], fun r hr => hrow r (hrows r hr),
    fun r hr => hbin r (hrows r hr), fun r hr => hrsum r (hrows r hr), ?_⟩
  · intro j hj
    have hcol : (colOf (applyRowsPerm M perm) j).sum = (colOf M j).sum := by
      unfold colOf applyRowsPerm
      rw [List.map_map, hlen]
      simp only [Function.comp_def]
      rw [sum_map_range (fun i => (M.getD (sigmaOf perm i) []).getD j 0) n]
      rw [sum_reindex_sigma (fun i => (M.getD i []).getD j 0) n _ hlt hinj]
      rw [sum_map_getD M (fun r => r.getD j 0) [], hlen]
    rw [hcol]
    exact hcsum j hj

/-! ### Anatomy of one pass of the single-sided scan -/

lemma acceptedOf_nil : acceptedOf [] = [] := rfl

lemma acceptedOf_cons_true (x : ℚ) (tr : List (ℚ × Bool)) :
    acceptedOf ((x, true) :: tr) = x :: acceptedOf tr := by simp [acceptedOf]

lemma acceptedOf_cons_false (x : ℚ) (tr : List (ℚ × Bool)) :
    acceptedOf ((x, false) :: tr) = acceptedOf tr := by simp [acceptedOf]

lemma acceptedOf_append (t1 t2 : List (ℚ × Bool)) :
    acceptedOf (t1 ++ t2) = acceptedOf t1 ++ acceptedOf t2 := by simp [acceptedOf]

lemma scanCols_moves (f : Mat ℚ → ℚ) : ∀ (perms : List (List ℕ)) (p : Mat ℚ) (e : ℚ) (s : Bool),
    (scanCols f perms p e s).p = List.foldl applyColsPerm p (scanCols f perms p e s).moves ∧
    ∀ mv ∈ (scanCols f perms p e s).moves, mv ∈ perms := by
  intro perms
  induction perms with
  | nil => intro p e s; simp [scanCols]
  | cons perm rest ih =>
    intro p e s
    simp only [scanCols]
    by_cases h1 : perm = sortNat perm
    · simp only [if_pos h1]
      obtain ⟨ha, hb⟩ := ih p e s
      exact ⟨ha, fun mv hmv => List.mem_cons_of_mem _ (hb mv hmv)⟩
    · simp only [if_neg h1]
      by_cases h2 : f (applyColsPerm p perm) < e
      · simp only [if_pos h2]
        by_cases h3 : f (applyColsPerm p perm) ≤ koptTol
        · simp only [if_pos h3]
          exact ⟨by simp, by simp⟩
        · simp only [if_neg h3]
          obtain ⟨ha, hb⟩ := ih (applyColsPerm p perm) (f (applyColsPerm p perm)) true
          refine ⟨by simpa using ha, fun mv hmv => ?_⟩
          simp only [List.mem_cons] at hmv ⊢
          rcases hmv with rfl | hmv
          · exact Or.inl rfl
          · exact Or.inr (hb mv hmv)
      · simp only [if_neg h2]
        obtain ⟨ha, hb⟩ := ih p e s
        exact ⟨by simpa using ha, fun mv hmv => List.mem_cons_of_mem _ (hb mv (by simpa using hmv))⟩

lemma scanCols_chain (f : Mat ℚ → ℚ) : ∀ (perms : List (List ℕ)) (p : Mat ℚ) (e : ℚ) (s : Bool),
    decreasingFrom e (acceptedOf (scanCols f perms p e s).trace) ∧
    (scanCols f perms p e s).e =
      (acceptedOf (scanCols f perms p e s).trace).foldl (fun _ x => x) e := by
  intro perms
  induction perms with
  | nil => intro p e s; simp [scanCols, acceptedOf_nil, decreasingFrom]
  | cons perm rest ih =>
    intro p e s
    simp only [scanCols]
    by_cases h1 : perm = sortNat perm
    · simp only [if_pos h1]
      exact ih p e s
    · simp only [if_neg h1]
      by_cases h2 : f (applyColsPerm p perm) < e
      · simp only [if_pos h2]
        by_cases h3 : f (applyColsPerm p perm) ≤ koptTol
        · simp only [if_pos h3]
          refine ⟨?_, by simp [acceptedOf_cons_true, acceptedOf_nil]⟩
          simp only [acceptedOf_cons_true, acceptedOf_nil]
          rw [decreasingFrom_cons]
          exact ⟨h2, by simp [decreasingFrom]⟩
        · simp only [if_neg h3]
          obtain ⟨ha, hb⟩ := ih (applyColsPerm p perm) (f (applyColsPerm p perm)) true
          refine ⟨?_, ?_⟩
          · simp only [acceptedOf_cons_true]
            rw [decreasingFrom_cons]
            exact ⟨h2, ha⟩
          · simpa [acceptedOf_cons_true] using hb
      · simp only [if_neg h2]
        obtain ⟨ha, hb⟩ := ih p e s
        exact ⟨by simpa [acceptedOf_cons_false] using ha,
          by simpa [acceptedOf_cons_false] using hb⟩

lemma scanCols_e_le (f : Mat ℚ → ℚ) (perms : List (List ℕ)) (p : Mat ℚ) (e : ℚ) (s : Bool) :
    (scanCols f perms p e s).e ≤ e := by
  obtain ⟨h1, h2⟩ := scanCols_chain f perms p e s
  rw [h2]
  exact decreasingFrom_foldl_le h1

lemma scanCols_search_mono (f : Mat ℚ → ℚ) :
    ∀ (perms : List (List ℕ)) (p : Mat ℚ) (e : ℚ),
    (scanCols f perms p e true).search = true := by
  intro perms
  induction perms with
  | nil => intro p e; simp [scanCols]
  | cons perm rest ih =>
    intro p e
    simp only [scanCols]
    by_cases h1 : perm = sortNat perm
    · simp only [if_pos h1]
      exact ih p e
    · simp only [if_neg h1]
      by_cases h2 : f (applyColsPerm p perm) < e
      · simp only [if_pos h2]
        by_cases h3 : f (applyColsPerm p perm) ≤ koptTol
        · simp [if_pos h3]
        · simp only [if_neg h3]
          simpa using ih (applyColsPerm p perm) (f (applyColsPerm p perm))
      · simp only [if_neg h2]
        simpa using ih p e

lemma scanCols_search_lt (f : Mat ℚ → ℚ) :
    ∀ (perms : List (List ℕ)) (p : Mat ℚ) (e : ℚ) (s : Bool),
    (scanCols f perms p e s).search = true → s = true ∨ (scanCols f perms p e s).e < e := by
  intro perms
  induction perms with
  | nil => intro p e s h; simp only [scanCols] at h; exact Or.inl h
  | cons perm rest ih =>
    intro p e s h
    simp only [scanCols] at h ⊢
    by_cases h1 : perm = sortNat perm
    · simp only [if_pos h1] at h ⊢
      exact ih p e s h
    · simp only [if_neg h1] at h ⊢
      by_cases h2 : f (applyColsPerm p perm) < e
      · simp only [if_pos h2] at h ⊢
        by_cases h3 : f (applyColsPerm p perm) ≤ koptTol
        · simp only [if_pos h3]
          exact Or.inr h2
        · simp only [if_neg h3] at h ⊢
          refine Or.inr (lt_of_le_of_lt ?_ h2)
          simpa using scanCols_e_le f rest (applyColsPerm p perm) (f (applyColsPerm p perm)) true
      · simp only [if_neg h2] at h ⊢
        exact ih p e s (by simpa using h)

lemma scanCols_error_fun (f : Mat ℚ → ℚ) :
    ∀ (perms : List (List ℕ)) (p : Mat ℚ) (e : ℚ) (s : Bool), e = f p →
    (scanCols f perms p e s).e = f ((scanCols f perms p e s).p) := by
  intro perms
  induction perms with
  | nil => intro p e s he; simpa [scanCols] using he
  | cons perm rest ih =>
    intro p e s he
    simp only [scanCols]
    by_cases h1 : perm = sortNat perm
    · simp only [if_pos h1]
      exact ih p e s he
    · simp only [if_neg h1]
      by_cases h2 : f (applyColsPerm p perm) < e
      · simp only [if_pos h2]
        by_cases h3 : f (applyColsPerm p perm) ≤ koptTol
        · simp [if_pos h3]
        · simp only [if_neg h3]
          simpa using ih (applyColsPerm p perm) (f (applyColsPerm p perm)) true rfl
      · simp only [if_neg h2]
        simpa using ih p e s he

lemma scanCols_early_tol (f : Mat ℚ → ℚ) :
    ∀ (perms : List (List ℕ)) (p : Mat ℚ) (e : ℚ) (s : Bool),
    (scanCols f perms p e s).early = true → (scanCols f perms p e s).e ≤ koptTol := by
  intro perms
  induction perms with
  | nil => intro p e s h; simp [scanCols] at h
  | cons perm rest ih =>
    intro p e s h
    simp only [scanCols] at h ⊢
    by_cases h1 : perm = sortNat perm
    · simp only [if_pos h1] at h ⊢
      exact ih p e s h
    · simp only [if_neg h1] at h ⊢
      by_cases h2 : f (applyColsPerm p perm) < e
      · simp only [if_pos h2] at h ⊢
        by_cases h3 : f (applyColsPerm p perm) ≤ koptTol
        · simpa [if_pos h3] using h3
        · simp only [if_neg h3] at h ⊢
          exact ih _ _ true (by simpa using h)
      · simp only [if_neg h2] at h ⊢
        exact ih p e s (by simpa using h)

lemma scanCols_no_tol_accept (f : Mat ℚ → ℚ) :
    ∀ (perms : List (List ℕ)) (p : Mat ℚ) (e : ℚ) (s : Bool),
    (scanCols f perms p e s).early = false →
    ∀ x ∈ (scanCols f perms p e s).trace, x.2 = true → koptTol < x.1 := by
  intro perms
  induction perms with
  | nil => intro p e s _ x hx; simp [scanCols] at hx
  | cons perm rest ih =>
    intro p e s hne x hx hacc
    simp only [scanCols] at hne hx
    by_cases h1 : perm = sortNat perm
    · simp only [if_pos h1] at hne hx
      exact ih p e s hne x hx hacc
    · simp only [if_neg h1] at hne hx
      by_cases h2 : f (applyColsPerm p perm) < e
      · simp only [if_pos h2] at hne hx
        by_cases h3 : f (applyColsPerm p perm) ≤ koptTol
        · simp [if_pos h3] at hne
        · simp only [if_neg h3] at hne hx
          simp only [List.mem_cons] at hx
          rcases hx with rfl | hx
          · exact lt_of_not_le h3
          · exact ih _ _ true (by simpa using hne) x hx hacc
      · simp only [if_neg h2] at hne hx
        simp only [List.mem_cons] at hx
        rcases hx with rfl | hx
        · simp at hacc
        · exact ih p e s (by simpa using hne) x hx hacc

/-! ### Anatomy of the single-sided `while` loop -/

lemma loopS_spec (f : Mat ℚ → ℚ) (perms : List (List ℕ)) : ∀ (fuel : ℕ) (p : Mat ℚ) (e : ℚ),
    decreasingFrom e (acceptedOf (loopS f perms fuel p e).2.1) ∧
    (∀ q e', (loopS f perms fuel p e).1 = some (q, e') →
      e' = (acceptedOf (loopS f perms fuel p e).2.1).foldl (fun _ x => x) e ∧
      q = List.foldl applyColsPerm p (loopS f perms fuel p e).2.2) ∧
    (∀ mv ∈ (loopS f perms fuel p e).2.2, mv ∈ perms) := by
  intro fuel
  induction fuel with
  | zero =>
    intro p e
    simp [loopS, acceptedOf_nil, decreasingFrom]
  | succ fuel ih =>
    intro p e
    simp only [loopS]
    by_cases hearly : (scanCols f perms p e false).early = true
    · simp only [if_pos hearly]
      obtain ⟨hch, hfe⟩ := scanCols_chain f perms p e false
      obtain ⟨hfold, hmv⟩ := scanCols_moves f perms p e false
      refine ⟨hch, fun q e' hq => ?_, hmv⟩
      obtain ⟨rfl, rfl⟩ : (scanCols f perms p e false).p = q ∧ (scanCols f perms p e false).e = e' := by
        simpa using hq
      exact ⟨hfe, hfold⟩
    · simp only [if_neg hearly]
      by_cases hsearch : (scanCols f perms p e false).search = true
      · simp only [if_pos hsearch]
        obtain ⟨hch, hfe⟩ := scanCols_chain f perms p e false
        obtain ⟨hfold, hmv⟩ := scanCols_moves f perms p e false
        obtain ⟨ich, isome, imv⟩ := ih (scanCols f perms p e false).p (scanCols f perms p e false).e
        refine ⟨?_, ?_, ?_⟩
        · simp only [acceptedOf_append]
          exact decreasingFrom_append hch (by rw [← hfe]; exact ich)
        · intro q e' hq
          obtain ⟨he', hq'⟩ := isome q e' hq
          constructor
          · simp only [acceptedOf_append, List.foldl_append]
            rw [← hfe]
            exact he'
          · simp only [List.foldl_append]
            rw [← hfold]
            exact hq'
        · intro mv hmv'
          simp only [List.mem_append] at hmv'
          rcases hmv' with h | h
          · exact hmv mv h
          · exact imv mv h
      · simp only [if_neg hsearch]
        obtain ⟨hch, hfe⟩ := scanCols_chain f perms p e false
        obtain ⟨hfold, hmv⟩ := scanCols_moves f perms p e false
        refine ⟨hch, fun q e' hq => ?_, hmv⟩
        obtain ⟨rfl, rfl⟩ : (scanCols f perms p e false).p = q ∧ (scanCols f perms p e false).e = e' := by
          simpa using hq
        exact ⟨hfe, hfold⟩

lemma loopS_error_fun (f : Mat ℚ → ℚ) (perms : List (List ℕ)) :
    ∀ (fuel : ℕ) (p : Mat ℚ) (e : ℚ), e = f p →
    ∀ q e', (loopS f perms fuel p e).1 = some (q, e') → e' = f q := by
  intro fuel
  induction fuel with
  | zero => intro p e _ q e' h; simp [loopS] at h
  | succ fuel ih =>
    intro p e he q e' h
    simp only [loopS] at h
    by_cases hearly : (scanCols f perms p e false).early = true
    · simp only [if_pos hearly] at h
      obtain ⟨rfl, rfl⟩ : (scanCols f perms p e false).p = q ∧ (scanCols f perms p e false).e = e' := by
        simpa using h
      exact (scanCols_error_fun f perms p e false he).symm ▸ rfl
    · simp only [if_neg hearly] at h
      by_cases hsearch : (scanCols f perms p e false).search = true
      · simp only [if_pos hsearch] at h
        exact ih _ _ (scanCols_error_fun f perms p e false he) q e' (by simpa using h)
      · simp only [if_neg hsearch] at h
        obtain ⟨rfl, rfl⟩ : (scanCols f perms p e false).p = q ∧ (scanCols f perms p e false).e = e' := by
          simpa using h
        exact (scanCols_error_fun f perms p e false he).symm ▸ rfl

/-! ### Anatomy of the double-sided scan -/

lemma decreasingFrom_mem_foldl_le {e x : ℚ} {l : List ℚ} (h : decreasingFrom e l)
    (hx : x ∈ l) : l.foldl (fun _ y => y) e ≤ x := by
  induction l generalizing e with
  | nil => simp at hx
  | cons y t ih =>
    rw [decreasingFrom_cons] at h
    rcases List.mem_cons.1 hx with rfl | hx
    · calc (x :: t).foldl (fun _ y => y) e = t.foldl (fun _ y => y) x := by simp
      _ ≤ x := decreasingFrom_foldl_le h.2
    · calc (y :: t).foldl (fun _ y => y) e = t.foldl (fun _ y => y) y := by simp
      _ ≤ x := ih h.2 hx

lemma scanInner_chain (a b : Mat ℚ) (perm1 : List ℕ) :
    ∀ (perms2 : List (List ℕ)) (p1 p2 : Mat ℚ) (e : ℚ),
    decreasingFrom e (acceptedOf (scanInner a b perm1 perms2 p1 p2 e).trace) ∧
    (scanInner a b perm1 perms2 p1 p2 e).e =
      (acceptedOf (scanInner a b perm1 perms2 p1 p2 e).trace).foldl (fun _ x => x) e := by
  intro perms2
  induction perms2 with
  | nil => intro p1 p2 e; simp [scanInner, acceptedOf_nil, decreasingFrom]
  | cons perm2 rest ih =>
    intro p1 p2 e
    simp only [scanInner]
    by_cases h1 : perm1 = sortNat perm1 ∧ perm2 = sortNat perm2
    · simp only [if_pos h1]
      exact ih p1 p2 e
    · simp only [if_neg h1]
      by_cases h2 : compute_error b a (applyRowsPerm p2 perm2)
          (some (transposeM (applyRowsPerm p1 perm1))) < e
      · simp only [if_pos h2]
        by_cases h3 : compute_error b a (applyRowsPerm p2 perm2)
            (some (transposeM (applyRowsPerm p1 perm1))) ≤ koptTol
        · simp only [if_pos h3]
          refine ⟨?_, by simp [acceptedOf_cons_true, acceptedOf_nil]⟩
          simp only [acceptedOf_cons_true, acceptedOf_nil]
          rw [decreasingFrom_cons]
          exact ⟨h2, by simp [decreasingFrom]⟩
        · simp only [if_neg h3]
          obtain ⟨ha, hb⟩ := ih (applyRowsPerm p1 perm1) (applyRowsPerm p2 perm2) _
          refine ⟨?_, by simpa [acceptedOf_cons_true] using hb⟩
          simp only [acceptedOf_cons_true]
          rw [decreasingFrom_cons]
          exact ⟨h2, ha⟩
      · simp only [if_neg h2]
        obtain ⟨ha, hb⟩ := ih p1 p2 e
        exact ⟨by simpa [acceptedOf_cons_false] using ha,
          by simpa [acceptedOf_cons_false] using hb⟩

lemma scanInner_moves (a b : Mat ℚ) (perm1 : List ℕ) :
    ∀ (perms2 : List (List ℕ)) (p1 p2 : Mat ℚ) (e : ℚ),
    (scanInner a b perm1 perms2 p1 p2 e).p1 =
      List.foldl (fun q mv => applyRowsPerm q (Prod.fst mv)) p1
        (scanInner a b perm1 perms2 p1 p2 e).moves ∧
    (scanInner a b perm1 perms2 p1 p2 e).p2 =
      List.foldl (fun q mv => applyRowsPerm q (Prod.snd mv)) p2
        (scanInner a b perm1 perms2 p1 p2 e).moves ∧
    ∀ mv ∈ (scanInner a b perm1 perms2 p1 p2 e).moves,
      mv.1 = perm1 ∧ mv.2 ∈ perms2 ∧ ¬(mv.1 = sortNat mv.1 ∧ mv.2 = sortNat mv.2) := by
  intro perms2
  induction perms2 with
  | nil => intro p1 p2 e; simp [scanInner]
  | cons perm2 rest ih =>
    intro p1 p2 e
    simp only [scanInner]
    by_cases h1 : perm1 = sortNat perm1 ∧ perm2 = sortNat perm2
    · simp only [if_pos h1]
      obtain ⟨ha, hb, hc⟩ := ih p1 p2 e
      exact ⟨ha, hb, fun mv hmv => ⟨(hc mv hmv).1,
        List.mem_cons_of_mem _ (hc mv hmv).2.1, (hc mv hmv).2.2⟩⟩
    · simp only [if_neg h1]
      by_cases h2 : compute_error b a (applyRowsPerm p2 perm2)
          (some (transposeM (applyRowsPerm p1 perm1))) < e
      · simp only [if_pos h2]
        by_cases h3 : compute_error b a (applyRowsPerm p2 perm2)
            (some (transposeM (applyRowsPerm p1 perm1))) ≤ koptTol
        · simp only [if_pos h3]
          refine ⟨by simp, by simp, ?_⟩
          intro mv hmv
          simp only [List.mem_singleton] at hmv
          subst hmv
          exact ⟨rfl, List.mem_cons_self _ _, h1⟩
        · simp only [if_neg h3]
          obtain ⟨ha, hb, hc⟩ := ih (applyRowsPerm p1 perm1) (applyRowsPerm p2 perm2) _
          refine ⟨by simpa using ha, by simpa using hb, ?_⟩
          intro mv hmv
          simp only [List.mem_cons] at hmv
          rcases hmv with rfl | hmv
          · exact ⟨rfl, List.mem_cons_self _ _, h1⟩
          · exact ⟨(hc mv hmv).1, List.mem_cons_of_mem _ (hc mv hmv).2.1, (hc mv hmv).2.2⟩
      · simp only [if_neg h2]
        obtain ⟨ha, hb, hc⟩ := ih p1 p2 e
        refine ⟨by simpa using ha, by simpa using hb, ?_⟩
        intro mv hmv
        exact ⟨(hc mv (by simpa using hmv)).1,
          List.mem_cons_of_mem _ (hc mv (by simpa using hmv)).2.1,
          (hc mv (by simpa using hmv)).2.2⟩

lemma scanInner_tol_stop (a b : Mat ℚ) (perm1 : List ℕ) :
    ∀ (perms2 : List (List ℕ)) (p1 p2 : Mat ℚ) (e : ℚ) (i : ℕ) (x : ℚ × Bool),
    (scanInner a b perm1 perms2 p1 p2 e).trace[i]? = some x →
    x.2 = true → x.1 ≤ koptTol →
    i = (scanInner a b perm1 perms2 p1 p2 e).trace.length - 1 ∧
    (scanInner a b perm1 perms2 p1 p2 e).brk = true ∧
    (scanInner a b perm1 perms2 p1 p2 e).e = x.1 := by
  intro perms2
  induction perms2 with
  | nil => intro p1 p2 e i x h; simp [scanInner] at h
  | cons perm2 rest ih =>
    intro p1 p2 e i x h hacc htol
    simp only [scanInner] at h ⊢
    by_cases h1 : perm1 = sortNat perm1 ∧ perm2 = sortNat perm2
    · simp only [if_pos h1] at h ⊢
      exact ih p1 p2 e i x h hacc htol
    · simp only [if_neg h1] at h ⊢
      by_cases h2 : compute_error b a (applyRowsPerm p2 perm2)
          (some (transposeM (applyRowsPerm p1 perm1))) < e
      · simp only [if_pos h2] at h ⊢
        by_cases h3 : compute_error b a (applyRowsPerm p2 perm2)
            (some (transposeM (applyRowsPerm p1 perm1))) ≤ koptTol
        · simp only [if_pos h3] at h ⊢
          match i with
          | 0 =>
            simp only [List.getElem?_cons_zero, Option.some.injEq] at h
            subst h
            simp
          | i + 1 => simp at h
        · simp only [if_neg h3] at h ⊢
          match i with
          | 0 =>
            simp only [List.getElem?_cons_zero, Option.some.injEq] at h
            subst h
            exact absurd htol h3
          | i + 1 =>
            simp only [List.getElem?_cons_succ] at h
            obtain ⟨hlen, hbrk, he⟩ := ih _ _ _ i x h hacc htol
            refine ⟨?_, hbrk, he⟩
            have hi : i < (scanInner a b perm1 rest (applyRowsPerm p1 perm1)
                (applyRowsPerm p2 perm2) (compute_error b a (applyRowsPerm p2 perm2)
                  (some (transposeM (applyRowsPerm p1 perm1))))).trace.length :=
              by
                by_contra hc
                rw [List.getElem?_eq_none (by omega)] at h
                exact Option.noConfusion h
            simp only [List.length_cons]
            omega
      · simp only [if_neg h2] at h ⊢
        match i with
        | 0 =>
          simp only [List.getElem?_cons_zero, Option.some.injEq] at h
          subst h
          simp at hacc
        | i + 1 =>
          simp only [List.getElem?_cons_succ] at h
          obtain ⟨hlen, hbrk, he⟩ := ih p1 p2 e i x h hacc htol
          refine ⟨?_, hbrk, he⟩
          have hi : i < (scanInner a b perm1 rest p1 p2 e).trace.length :=
            by
              by_contra hc
              rw [List.getElem?_eq_none (by omega)] at h
              exact Option.noConfusion h
          simp only [List.length_cons]
          omega

lemma scanOuter_chain (a b : Mat ℚ) (perms2 : List (List ℕ)) :
    ∀ (perms1 : List (List ℕ)) (p1 p2 : Mat ℚ) (e : ℚ),
    decreasingFrom e (acceptedOf (scanOuter a b perms2 perms1 p1 p2 e).trace) ∧
    (scanOuter a b perms2 perms1 p1 p2 e).e =
      (acceptedOf (scanOuter a b perms2 perms1 p1 p2 e).trace).foldl (fun _ x => x) e := by
  intro perms1
  induction perms1 with
  | nil => intro p1 p2 e; simp [scanOuter, acceptedOf_nil, decreasingFrom]
  | cons perm1 rest ih =>
    intro p1 p2 e
    simp only [scanOuter]
    obtain ⟨hch, hfe⟩ := scanInner_chain a b perm1 perms2 p1 p2 e
    obtain ⟨ich, ife⟩ := ih (scanInner a b perm1 perms2 p1 p2 e).p1
      (scanInner a b perm1 perms2 p1 p2 e).p2 (scanInner a b perm1 perms2 p1 p2 e).e
    constructor
    · simp only [acceptedOf_append]
      exact decreasingFrom_append hch (by rw [← hfe]; exact ich)
    · simp only [acceptedOf_append, List.foldl_append]
      rw [← hfe]
      exact ife

lemma scanOuter_moves (a b : Mat ℚ) (perms2 : List (List ℕ)) :
    ∀ (perms1 : List (List ℕ)) (p1 p2 : Mat ℚ) (e : ℚ),
    (scanOuter a b perms2 perms1 p1 p2 e).p1 =
      List.foldl (fun q mv => applyRowsPerm q (Prod.fst mv)) p1
        (scanOuter a b perms2 perms1 p1 p2 e).moves ∧
    (scanOuter a b perms2 perms1 p1 p2 e).p2 =
      List.foldl (fun q mv => applyRowsPerm q (Prod.snd mv)) p2
        (scanOuter a b perms2 perms1 p1 p2 e).moves ∧
    ∀ mv ∈ (scanOuter a b perms2 perms1 p1 p2 e).moves,
      mv.1 ∈ perms1 ∧ mv.2 ∈ perms2 ∧ ¬(mv.1 = sortNat mv.1 ∧ mv.2 = sortNat mv.2) := by
  intro perms1
  induction perms1 with
  | nil => intro p1 p2 e; simp [scanOuter]
  | cons perm1 rest ih =>
    intro p1 p2 e
    simp only [scanOuter]
    obtain ⟨ha, hb, hc⟩ := scanInner_moves a b perm1 perms2 p1 p2 e
    obtain ⟨ia, ib, ic⟩ := ih (scanInner a b perm1 perms2 p1 p2 e).p1
      (scanInner a b perm1 perms2 p1 p2 e).p2 (scanInner a b perm1 perms2 p1 p2 e).e
    refine ⟨?_, ?_, ?_⟩
    · simp only [List.foldl_append]
      rw [← ha]
      exact ia
    · simp only [List.foldl_append]
      rw [← hb]
      exact ib
    · intro mv hmv
      simp only [List.mem_append] at hmv
      rcases hmv with h | h
      · exact ⟨(hc mv h).1 ▸ List.mem_cons_self _ _, (hc mv h).2.1, (hc mv h).2.2⟩
      · exact ⟨List.mem_cons_of_mem _ (ic mv h).1, (ic mv h).2.1, (ic mv h).2.2⟩

lemma foldl_applyColsPerm_isPermMat {n : ℕ} : ∀ (moves : List (List ℕ)) (p : Mat ℚ),
    IsPermMat n p → (∀ mv ∈ moves, mv.Nodup ∧ ∀ x ∈ mv, x < n) →
    IsPermMat n (List.foldl applyColsPerm p moves) := by
  intro moves
  induction moves with
  | nil => intro p hp _; simpa using hp
  | cons mv t ih =>
    intro p hp hmv
    simp only [List.foldl_cons]
    exact ih _ (applyColsPerm_isPermMat hp (hmv mv (List.mem_cons_self _ _)).1
        (hmv mv (List.mem_cons_self _ _)).2)
      (fun x hx => hmv x (List.mem_cons_of_mem _ hx))

lemma foldl_applyRowsPerm_isPermMat {n : ℕ} {β : Type} (g : β → List ℕ) :
    ∀ (moves : List β) (p : Mat ℚ),
    IsPermMat n p → (∀ mv ∈ moves, (g mv).Nodup ∧ ∀ x ∈ g mv, x < n) →
    IsPermMat n (List.foldl (fun q mv => applyRowsPerm q (g mv)) p moves) := by
  intro moves
  induction moves with
  | nil => intro p hp _; simpa using hp
  | cons mv t ih =>
    intro p hp hmv
    simp only [List.foldl_cons]
    exact ih _ (applyRowsPerm_isPermMat hp (hmv mv (List.mem_cons_self _ _)).1
        (hmv mv (List.mem_cons_self _ _)).2)
      (fun x hx => hmv x (List.mem_cons_of_mem _ hx))

lemma scanCols_tol_stop (f : Mat ℚ → ℚ) :
    ∀ (perms : List (List ℕ)) (p : Mat ℚ) (e : ℚ) (s : Bool) (i : ℕ) (x : ℚ × Bool),
    (scanCols f perms p e s).trace[i]? = some x → x.2 = true → x.1 ≤ koptTol →
    i = (scanCols f perms p e s).trace.length - 1 ∧
    (scanCols f perms p e s).early = true ∧ (scanCols f perms p e s).e = x.1 := by
  intro perms
  induction perms with
  | nil => intro p e s i x h; simp [scanCols] at h
  | cons perm rest ih =>
    intro p e s i x h hacc htol
    simp only [scanCols] at h ⊢
    by_cases h1 : perm = sortNat perm
    · simp only [if_pos h1] at h ⊢
      exact ih p e s i x h hacc htol
    · simp only [if_neg h1] at h ⊢
      by_cases h2 : f (applyColsPerm p perm) < e
      · simp only [if_pos h2] at h ⊢
        by_cases h3 : f (applyColsPerm p perm) ≤ koptTol
        · simp only [if_pos h3] at h ⊢
          match i with
          | 0 =>
            simp only [List.getElem?_cons_zero, Option.some.injEq] at h
            subst h
            simp
          | i + 1 => simp at h
        · simp only [if_neg h3] at h ⊢
          match i with
          | 0 =>
            simp only [List.getElem?_cons_zero, Option.some.injEq] at h
            subst h
            exact absurd htol h3
          | i + 1 =>
            simp only [List.getElem?_cons_succ] at h
            obtain ⟨hlen, hbrk, he⟩ := ih _ _ true i x h hacc htol
            refine ⟨?_, hbrk, he⟩
            have hi : i < (scanCols f rest (applyColsPerm p perm)
                (f (applyColsPerm p perm)) true).trace.length := by
              by_contra hc
              rw [List.getElem?_eq_none (by omega)] at h
              exact Option.noConfusion h
            simp only [List.length_cons]
            omega
      · simp only [if_neg h2] at h ⊢
        match i with
        | 0 =>
          simp only [List.getElem?_cons_zero, Option.some.injEq] at h
          subst h
          simp at hacc
        | i + 1 =>
          simp only [List.getElem?_cons_succ] at h
          obtain ⟨hlen, hbrk, he⟩ := ih p e s i x h hacc htol
          refine ⟨?_, hbrk, he⟩
          have hi : i < (scanCols f rest p e s).trace.length := by
            by_contra hc
            rw [List.getElem?_eq_none (by omega)] at h
            exact Option.noConfusion h
          simp only [List.length_cons]
          omega

lemma loopS_tol_stop (f : Mat ℚ → ℚ) (perms : List (List ℕ)) :
    ∀ (fuel : ℕ) (p : Mat ℚ) (e : ℚ) (i : ℕ) (x : ℚ × Bool),
    (loopS f perms fuel p e).2.1[i]? = some x → x.2 = true → x.1 ≤ koptTol →
    i = (loopS f perms fuel p e).2.1.length - 1 ∧
    Option.map Prod.snd (loopS f perms fuel p e).1 = some x.1 := by
  intro fuel
  induction fuel with
  | zero => intro p e i x h; simp [loopS] at h
  | succ fuel ih =>
    intro p e i x h hacc htol
    simp only [loopS] at h ⊢
    by_cases hearly : (scanCols f perms p e false).early = true
    · simp only [if_pos hearly] at h ⊢
      obtain ⟨hlen, _, he⟩ := scanCols_tol_stop f perms p e false i x h hacc htol
      exact ⟨hlen, by simp [he]⟩
    · simp only [if_neg hearly] at h ⊢
      by_cases hsearch : (scanCols f perms p e false).search = true
      · simp only [if_pos hsearch] at h ⊢
        by_cases hi : i < (scanCols f perms p e false).trace.length
        · exfalso
          rw [List.getElem?_append, if_pos hi] at h
          have hmem : x ∈ (scanCols f perms p e false).trace := by
            have := List.getElem?_eq_some.1 h
            obtain ⟨hlt, hx⟩ := this
            exact hx ▸ List.getElem_mem _
          exact absurd (scanCols_no_tol_accept f perms p e false
            (by simpa using hearly) x hmem hacc) (not_lt.2 htol)
        · push_neg at hi
          rw [List.getElem?_append, if_neg (not_lt.2 hi)] at h
          obtain ⟨hlen, hres⟩ := ih (scanCols f perms p e false).p
            (scanCols f perms p e false).e _ x h hacc htol
          have hlt : i - (scanCols f perms p e false).trace.length <
              (loopS f perms fuel (scanCols f perms p e false).p
                (scanCols f perms p e false).e).2.1.length := by
            by_contra hc
            rw [List.getElem?_eq_none (by omega)] at h
            exact Option.noConfusion h
          refine ⟨?_, hres⟩
          simp only [List.length_append]
          omega
      · simp only [if_neg hsearch] at h ⊢
        obtain ⟨hlen, hearly', he⟩ := scanCols_tol_stop f perms p e false i x h hacc htol
        exact absurd hearly' hearly

lemma scanOuter_tol_keep (a b : Mat ℚ) (perms1 perms2 : List (List ℕ)) (p1 p2 : Mat ℚ)
    (e : ℚ) (x : ℚ) (hx : x ∈ acceptedOf (scanOuter a b perms2 perms1 p1 p2 e).trace)
    (htol : x ≤ koptTol) : (scanOuter a b perms2 perms1 p1 p2 e).e ≤ koptTol := by
  obtain ⟨hch, hfe⟩ := scanOuter_chain a b perms2 perms1 p1 p2 e
  rw [hfe]
  exact le_trans (decreasingFrom_mem_foldl_le hch hx) htol

/-- C7 counterexample: the double-sided refiner does not fail when `k`
exceeds the matrix dimension.  With 2×2 inputs and `k = 3` the permutation
enumeration is empty and the initial candidates are returned successfully,
so the claim that both refiners fail whenever `k` exceeds the dimension is
false. -/
theorem kopt_double_accepts_oversized_k :
    kopt_heuristic_double [[1, 2], [3, 4]] [[2, 1], [4, 3]] none none 3 =
      .ok ([[1, 0], [0, 1]], [[1, 0], [0, 1]], 4) := by
  norm_num [kopt_heuristic_double, scanOuter, scanInner, kperms, kpermsAux, sortNat,
    compute_error, matMul, matSub, frobSq, transposeM, colOf, dotList, numCols, numRows,
    shape, identityMat, applyRowsPerm, sigmaOf, koptTol, List.insertionSort,
    List.orderedInsert, List.indexOf, List.findIdx, List.findIdx.go, List.getD, List.range,
    List.range.loop, cond_eq_if, List.getElem?_cons_zero, List.getElem?_cons_succ,
    List.getElem?_nil, List.flatMap, List.erase, Option.getD]

/-- C7 (amended): the single-sided refiner raises `ValueError` exactly when
`k < 2`, `p0` is not square, or `k` exceeds the row count of `p0`, while the
double-sided refiner raises exactly when `k < 2` or the shapes of `a` and
`b` differ — it performs no squareness check on `p1`/`p2` and no check of
`k` against the dimensions.  All checks precede any search step. -/
theorem kopt_validation_characterization :
    (∀ (f : Mat ℚ → ℚ) (p0 : Mat ℚ) (k fuel : ℕ),
      isError (kopt_heuristic_single f p0 k fuel) = true ↔
        (k < 2 ∨ numRows p0 ≠ numCols p0 ∨ numRows p0 < k)) ∧
    (∀ (a b : Mat ℚ) (p1 p2 : Option (Mat ℚ)) (k : ℕ),
      isError (kopt_heuristic_double a b p1 p2 k) = true ↔
        (k < 2 ∨ shape a ≠ shape b)) := by
  constructor
  · intro f p0 k fuel
    unfold kopt_heuristic_single
    split_ifs with h1 h2 h3 <;> simp_all [isError]
  · intro a b p1 p2 k
    unfold kopt_heuristic_double
    split_ifs with h1 h2 <;> simp_all [isError]

/-- Witness for the validation characterization: at `k = 1` with mismatched
shapes the double-sided refiner does raise. -/
theorem kopt_validation_characterization_witness :
    isError (kopt_heuristic_double [[(1 : ℚ)]] [] none none 1) = true :=
  (kopt_validation_characterization.2 [[(1 : ℚ)]] [] none none 1).mpr (by decide)

/-- C2 counterexample: on `a = [[2,0],[0,1]]`, `b = [[0,0],[2,3]]` with
`k = 2` and identity starting matrices, the double-sided refiner returns
`p1 = [[0,1],[1,0]]`, `p2 = I`, error `10`, although the 2-fold reordering
of `p2` alone (yielding `p2' = [[0,1],[1,0]]`) scores `6 < 10` under the
refiner's own candidate evaluation.  The refiner therefore does not
terminate "only when no further k-fold reordering of either permutation
matrix lowers the error": it makes a single pass and stops. -/
theorem kopt_double_not_local_optimum :
    kopt_heuristic_double [[2, 0], [0, 1]] [[0, 0], [2, 3]] none none 2 =
      .ok ([[0, 1], [1, 0]], [[1, 0], [0, 1]], 10) ∧
    applyRowsPerm ([[1, 0], [0, 1]] : Mat ℚ) [1, 0] = [[0, 1], [1, 0]] ∧
    compute_error ([[0, 0], [2, 3]] : Mat ℚ) [[2, 0], [0, 1]] [[0, 1], [1, 0]]
      (some (transposeM [[0, 1], [1, 0]])) = 6 ∧ (6 : ℚ) < 10 := by
  refine ⟨?_, ?_, ?_, by norm_num⟩ <;>
  norm_num [kopt_heuristic_double, scanOuter, scanInner, kperms, kpermsAux, sortNat,
    compute_error, matMul, matSub, frobSq, transposeM, colOf, dotList, numCols, numRows,
    shape, identityMat, applyRowsPerm, sigmaOf, koptTol, List.insertionSort,
    List.orderedInsert, List.indexOf, List.findIdx, List.findIdx.go, List.getD, List.range,
    List.range.loop, cond_eq_if, List.getElem?_cons_zero, List.getElem?_cons_succ,
    List.getElem?_nil, List.flatMap, List.erase, Option.getD]

/-- C4 counterexample: on `a = [[1,2],[3,4]]`, `b = [[2,1],[4,3]]` with
`k = 2`, the first evaluated candidate of the double-sided refiner is
accepted with error `0 ≤ 1e-8`, yet two further candidates are evaluated
afterwards (the `break` only leaves the inner loop), refuting the claim
that the refiner returns immediately, evaluating no further candidates. -/
theorem kopt_double_evaluates_after_tol :
    (scanOuter [[1, 2], [3, 4]] [[2, 1], [4, 3]] (kperms 2 2) (kperms 2 2)
        (identityMat 2) (identityMat 2)
        (compute_error [[1, 2], [3, 4]] [[2, 1], [4, 3]] (identityMat 2)
          (some (transposeM (identityMat 2))))).trace =
      [(0, true), (16, false), (20, false)] ∧
    (0 : ℚ) ≤ koptTol := by
  constructor
  · norm_num [scanOuter, scanInner, kperms, kpermsAux, sortNat, compute_error, matMul,
      matSub, frobSq, transposeM, colOf, dotList, numCols, numRows, identityMat,
      applyRowsPerm, sigmaOf, koptTol, List.insertionSort, List.orderedInsert, List.indexOf,
      List.findIdx, List.findIdx.go, List.getD, List.range, List.range.loop, cond_eq_if,
      List.getElem?_cons_zero, List.getElem?_cons_succ, List.getElem?_nil, List.flatMap,
      List.erase]
  · norm_num [koptTol]

/-- C3: for both refiners, the accepted candidates form a strictly
decreasing (hence non-increasing) error chain from the initial objective
value, and the returned error is at most the initial one.  For the
single-sided refiner the initial value is `fun(p0)`; for the double-sided
refiner it is `compute_error(a, b, p2, p1.T)` on the initial pair. -/
theorem kopt_error_monotonic :
    (∀ (f : Mat ℚ → ℚ) (perms : List (List ℕ)) (fuel : ℕ) (p0 : Mat ℚ),
      decreasingFrom (f p0) (acceptedOf (loopS f perms fuel p0 (f p0)).2.1) ∧
      List.Chain' (· ≥ ·) (f p0 :: acceptedOf (loopS f perms fuel p0 (f p0)).2.1)) ∧
    (∀ (f : Mat ℚ → ℚ) (p0 : Mat ℚ) (k fuel : ℕ) (q : Mat ℚ) (e' : ℚ),
      kopt_heuristic_single f p0 k fuel = .ok (some (q, e')) → e' ≤ f p0) ∧
    (∀ (a b : Mat ℚ) (perms1 perms2 : List (List ℕ)) (p1 p2 : Mat ℚ) (e0 : ℚ),
      decreasingFrom e0 (acceptedOf (scanOuter a b perms2 perms1 p1 p2 e0).trace) ∧
      List.Chain' (· ≥ ·) (e0 :: acceptedOf (scanOuter a b perms2 perms1 p1 p2 e0).trace) ∧
      (scanOuter a b perms2 perms1 p1 p2 e0).e ≤ e0) ∧
    (∀ (a b : Mat ℚ) (p1 p2 : Option (Mat ℚ)) (k : ℕ) (r : Mat ℚ × Mat ℚ × ℚ),
      kopt_heuristic_double a b p1 p2 k = .ok r →
      r.2.2 ≤ compute_error a b (p2.getD (identityMat (numCols a)))
        (some (transposeM (p1.getD (identityMat (numRows a)))))) := by
  refine ⟨?_, ?_, ?_, ?_⟩
  · intro f perms fuel p0
    have h := (loopS_spec f perms fuel p0 (f p0)).1
    exact ⟨h, List.Chain'.imp (fun a b hab => le_of_lt hab) h⟩
  · intro f p0 k fuel q e' h
    unfold kopt_heuristic_single at h
    split_ifs at h
    simp only [Except.ok.injEq] at h
    obtain ⟨hch, hsome, _⟩ := loopS_spec f (kperms (numRows p0) k) fuel p0 (f p0)
    obtain ⟨he', _⟩ := hsome q e' h
    rw [he']
    exact decreasingFrom_foldl_le hch
  · intro a b perms1 perms2 p1 p2 e0
    obtain ⟨hch, hfe⟩ := scanOuter_chain a b perms2 perms1 p1 p2 e0
    refine ⟨hch, List.Chain'.imp (fun a b hab => le_of_lt hab) hch, ?_⟩
    rw [hfe]
    exact decreasingFrom_foldl_le hch
  · intro a b p1 p2 k r h
    unfold kopt_heuristic_double at h
    split_ifs at h
    simp only [Except.ok.injEq] at h
    obtain ⟨hch, hfe⟩ := scanOuter_chain a b (kperms (numCols a) k) (kperms (numRows a) k)
      (p1.getD (identityMat (numRows a))) (p2.getD (identityMat (numCols a)))
      (compute_error a b (p2.getD (identityMat (numCols a)))
        (some (transposeM (p1.getD (identityMat (numRows a))))))
    rw [← h]
    simp only
    rw [hfe]
    exact decreasingFrom_foldl_le hch

/-- Witness for the monotonicity theorem at concrete runs of both
refiners. -/
theorem kopt_error_monotonic_witness :
    ((0 : ℚ) ≤ (fun (_ : Mat ℚ) => (0 : ℚ)) (identityMat 2)) ∧
    ((((0 : ℚ), (0 : ℚ)) : ℚ × ℚ).2 ≤ (1 : ℚ)) ∧
    ((0 : ℚ) ≤ compute_error ([[1, 2], [3, 4]] : Mat ℚ) [[2, 1], [4, 3]]
      ((none : Option (Mat ℚ)).getD (identityMat (numCols ([[1, 2], [3, 4]] : Mat ℚ))))
      (some (transposeM ((none : Option (Mat ℚ)).getD
        (identityMat (numRows ([[1, 2], [3, 4]] : Mat ℚ))))))) := by
  refine ⟨?_, by norm_num, ?_⟩
  · refine kopt_error_monotonic.2.1 (fun _ => 0) (identityMat 2) 2 1 (identityMat 2) 0 ?_
    norm_num [kopt_heuristic_single, loopS, scanCols, kperms, kpermsAux, sortNat,
      applyColsPerm, sigmaOf, koptTol, numCols, numRows, identityMat, List.insertionSort,
      List.orderedInsert, List.indexOf, List.findIdx, List.findIdx.go, List.getD, List.range,
      List.range.loop, cond_eq_if, List.getElem?_cons_zero, List.getElem?_cons_succ,
      List.getElem?_nil, List.flatMap, List.erase]
  · refine kopt_error_monotonic.2.2.2 [[1, 2], [3, 4]] [[2, 1], [4, 3]] none none 2
      ([[1, 0], [0, 1]], [[0, 1], [1, 0]], 0) ?_
    norm_num [kopt_heuristic_double, scanOuter, scanInner, kperms, kpermsAux, sortNat,
      compute_error, matMul, matSub, frobSq, transposeM, colOf, dotList, numCols, numRows,
      shape, identityMat, applyRowsPerm, sigmaOf, koptTol, List.insertionSort,
      List.orderedInsert, List.indexOf, List.findIdx, List.findIdx.go, List.getD, List.range,
      List.range.loop, cond_eq_if, List.getElem?_cons_zero, List.getElem?_cons_succ,
      List.getElem?_nil, List.flatMap, List.erase, Option.getD]

/-- C6: the moves of both refiners (reordering k columns, respectively k
rows, named by a duplicate-free index list) preserve the
permutation-matrix invariant, and hence so do complete runs: whenever the
initial matrices are permutation matrices, so is every returned matrix. -/
theorem kopt_preserves_permutation_matrices :
    (∀ (n : ℕ) (M : Mat ℚ) (perm : List ℕ), IsPermMat n M → perm.Nodup →
      (∀ x ∈ perm, x < n) →
      IsPermMat n (applyColsPerm M perm) ∧ IsPermMat n (applyRowsPerm M perm)) ∧
    (∀ (f : Mat ℚ → ℚ) (p0 : Mat ℚ) (k fuel : ℕ) (q : Mat ℚ) (e' : ℚ),
      IsPermMat (numRows p0) p0 → kopt_heuristic_single f p0 k fuel = .ok (some (q, e')) →
      IsPermMat (numRows p0) q) ∧
    (∀ (a b : Mat ℚ) (p1 p2 : Option (Mat ℚ)) (k : ℕ) (r : Mat ℚ × Mat ℚ × ℚ),
      IsPermMat (numRows a) (p1.getD (identityMat (numRows a))) →
      IsPermMat (numCols a) (p2.getD (identityMat (numCols a))) →
      kopt_heuristic_double a b p1 p2 k = .ok r →
      IsPermMat (numRows a) r.1 ∧ IsPermMat (numCols a) r.2.1) := by
  refine ⟨?_, ?_, ?_⟩
  · intro n M perm hM hnd hmem
    exact ⟨applyColsPerm_isPermMat hM hnd hmem, applyRowsPerm_isPermMat hM hnd hmem⟩
  · intro f p0 k fuel q e' hp0 h
    unfold kopt_heuristic_single at h
    split_ifs at h
    simp only [Except.ok.injEq] at h
    obtain ⟨_, hsome, hmv⟩ := loopS_spec f (kperms (numRows p0) k) fuel p0 (f p0)
    obtain ⟨_, hq⟩ := hsome q e' h
    rw [hq]
    exact foldl_applyColsPerm_isPermMat _ p0 hp0
      (fun mv hmv' => ⟨(kperms_sound (hmv mv hmv')).1, (kperms_sound (hmv mv hmv')).2.1⟩)
  · intro a b p1 p2 k r hp1 hp2 h
    unfold kopt_heuristic_double at h
    split_ifs at h
    simp only [Except.ok.injEq] at h
    obtain ⟨hf1, hf2, hmv⟩ := scanOuter_moves a b (kperms (numCols a) k)
      (kperms (numRows a) k) (p1.getD (identityMat (numRows a)))
      (p2.getD (identityMat (numCols a)))
      (compute_error a b (p2.getD (identityMat (numCols a)))
        (some (transposeM (p1.getD (identityMat (numRows a))))))
    rw [← h]
    constructor
    · simp only
      rw [hf1]
      exact foldl_applyRowsPerm_isPermMat Prod.fst _ _ hp1
        (fun mv hmv' => ⟨(kperms_sound (hmv mv hmv').1).1, (kperms_sound (hmv mv hmv').1).2.1⟩)
    · simp only
      rw [hf2]
      exact foldl_applyRowsPerm_isPermMat Prod.snd _ _ hp2
        (fun mv hmv' => ⟨(kperms_sound (hmv mv hmv').2.1).1,
          (kperms_sound (hmv mv hmv').2.1).2.1⟩)

/-- Witness for the invariant theorem at a concrete permutation matrix and
concrete runs. -/
theorem kopt_preserves_permutation_matrices_witness :
    (IsPermMat 2 (applyColsPerm (identityMat 2) [1, 0]) ∧
      IsPermMat 2 (applyRowsPerm (identityMat 2) [1, 0])) ∧
    IsPermMat (numRows (identityMat 2 : Mat ℚ)) (identityMat 2) := by
  have hid : IsPermMat 2 (identityMat 2) := by
    norm_num [IsPermMat, identityMat, colOf, List.range, List.range.loop, List.getD,
      List.getElem?_cons_zero, List.getElem?_cons_succ, List.getElem?_nil]
    intro j hj
    interval_cases j <;> norm_num
  constructor
  · exact kopt_preserves_permutation_matrices.1 2 (identityMat 2) [1, 0] hid
      (by decide) (by decide)
  · refine kopt_preserves_permutation_matrices.2.1 (fun _ => 0) (identityMat 2) 2 1
      (identityMat 2) 0 (by exact hid) ?_
    norm_num [kopt_heuristic_single, loopS, scanCols, kperms, kpermsAux, sortNat,
      applyColsPerm, sigmaOf, koptTol, numCols, numRows, identityMat, List.insertionSort,
      List.orderedInsert, List.indexOf, List.findIdx, List.findIdx.go, List.getD, List.range,
      List.range.loop, cond_eq_if, List.getElem?_cons_zero, List.getElem?_cons_succ,
      List.getElem?_nil, List.flatMap, List.erase]

/-- C2 (amended): the double-sided refiner performs a single pass of the
nested scan over pairs of k-permutations (left outer, right inner, skipping
only the jointly-sorted pair); each accepted candidate reorders the rows of
both current permutation matrices simultaneously — there is no alternating
single-sided search and no repetition until a local optimum.  The final
pair is the fold of the accepted joint moves over the initial pair, the
accepted errors decrease strictly, and the final error is at most the
initial one; the public function returns exactly the single-pass result. -/
theorem kopt_double_joint_single_pass :
    (∀ (a b : Mat ℚ) (perms1 perms2 : List (List ℕ)) (p1 p2 : Mat ℚ) (e0 : ℚ),
      (scanOuter a b perms2 perms1 p1 p2 e0).p1 =
        List.foldl (fun q mv => applyRowsPerm q (Prod.fst mv)) p1
          (scanOuter a b perms2 perms1 p1 p2 e0).moves ∧
      (scanOuter a b perms2 perms1 p1 p2 e0).p2 =
        List.foldl (fun q mv => applyRowsPerm q (Prod.snd mv)) p2
          (scanOuter a b perms2 perms1 p1 p2 e0).moves ∧
      (∀ mv ∈ (scanOuter a b perms2 perms1 p1 p2 e0).moves,
        mv.1 ∈ perms1 ∧ mv.2 ∈ perms2 ∧ ¬(mv.1 = sortNat mv.1 ∧ mv.2 = sortNat mv.2)) ∧
      decreasingFrom e0 (acceptedOf (scanOuter a b perms2 perms1 p1 p2 e0).trace) ∧
      (scanOuter a b perms2 perms1 p1 p2 e0).e ≤ e0) ∧
    (∀ (a b : Mat ℚ) (p1 p2 : Option (Mat ℚ)) (k : ℕ), ¬k < 2 → shape a = shape b →
      kopt_heuristic_double a b p1 p2 k = .ok
        ((scanOuter a b (kperms (numCols a) k) (kperms (numRows a) k)
            (p1.getD (identityMat (numRows a))) (p2.getD (identityMat (numCols a)))
            (compute_error a b (p2.getD (identityMat (numCols a)))
              (some (transposeM (p1.getD (identityMat (numRows a))))))).p1,
          (scanOuter a b (kperms (numCols a) k) (kperms (numRows a) k)
            (p1.getD (identityMat (numRows a))) (p2.getD (identityMat (numCols a)))
            (compute_error a b (p2.getD (identityMat (numCols a)))
              (some (transposeM (p1.getD (identityMat (numRows a))))))).p2,
          (scanOuter a b (kperms (numCols a) k) (kperms (numRows a) k)
            (p1.getD (identityMat (numRows a))) (p2.getD (identityMat (numCols a)))
            (compute_error a b (p2.getD (identityMat (numCols a)))
              (some (transposeM (p1.getD (identityMat (numRows a))))))).e)) := by
  constructor
  · intro a b perms1 perms2 p1 p2 e0
    obtain ⟨hf1, hf2, hmv⟩ := scanOuter_moves a b perms2 perms1 p1 p2 e0
    obtain ⟨hch, hfe⟩ := scanOuter_chain a b perms2 perms1 p1 p2 e0
    exact ⟨hf1, hf2, hmv, hch, by rw [hfe]; exact decreasingFrom_foldl_le hch⟩
  · intro a b p1 p2 k hk hsh
    unfold kopt_heuristic_double
    rw [if_neg hk, if_neg (by simpa using hsh)]

/-- Witness for the single-pass characterization at a concrete call. -/
theorem kopt_double_joint_single_pass_witness :
    kopt_heuristic_double ([[1, 2], [3, 4]] : Mat ℚ) [[2, 1], [4, 3]] none none 2 = .ok
      ((scanOuter [[1, 2], [3, 4]] [[2, 1], [4, 3]] (kperms (numCols ([[1, 2], [3, 4]] : Mat ℚ)) 2)
          (kperms (numRows ([[1, 2], [3, 4]] : Mat ℚ)) 2)
          ((none : Option (Mat ℚ)).getD (identityMat (numRows ([[1, 2], [3, 4]] : Mat ℚ))))
          ((none : Option (Mat ℚ)).getD (identityMat (numCols ([[1, 2], [3, 4]] : Mat ℚ))))
          (compute_error [[1, 2], [3, 4]] [[2, 1], [4, 3]]
            ((none : Option (Mat ℚ)).getD (identityMat (numCols ([[1, 2], [3, 4]] : Mat ℚ))))
            (some (transposeM ((none : Option (Mat ℚ)).getD
              (identityMat (numRows ([[1, 2], [3, 4]] : Mat ℚ)))))))).p1,
        (scanOuter [[1, 2], [3, 4]] [[2, 1], [4, 3]] (kperms (numCols ([[1, 2], [3, 4]] : Mat ℚ)) 2)
          (kperms (numRows ([[1, 2], [3, 4]] : Mat ℚ)) 2)
          ((none : Option (Mat ℚ)).getD (identityMat (numRows ([[1, 2], [3, 4]] : Mat ℚ))))
          ((none : Option (Mat ℚ)).getD (identityMat (numCols ([[1, 2], [3, 4]] : Mat ℚ))))
          (compute_error [[1, 2], [3, 4]] [[2, 1], [4, 3]]
            ((none : Option (Mat ℚ)).getD (identityMat (numCols ([[1, 2], [3, 4]] : Mat ℚ))))
            (some (transposeM ((none : Option (Mat ℚ)).getD
              (identityMat (numRows ([[1, 2], [3, 4]] : Mat ℚ)))))))).p2,
        (scanOuter [[1, 2], [3, 4]] [[2, 1], [4, 3]] (kperms (numCols ([[1, 2], [3, 4]] : Mat ℚ)) 2)
          (kperms (numRows ([[1, 2], [3, 4]] : Mat ℚ)) 2)
          ((none : Option (Mat ℚ)).getD (identityMat (numRows ([[1, 2], [3, 4]] : Mat ℚ))))
          ((none : Option (Mat ℚ)).getD (identityMat (numCols ([[1, 2], [3, 4]] : Mat ℚ))))
          (compute_error [[1, 2], [3, 4]] [[2, 1], [4, 3]]
            ((none : Option (Mat ℚ)).getD (identityMat (numCols ([[1, 2], [3, 4]] : Mat ℚ))))
            (some (transposeM ((none : Option (Mat ℚ)).getD
              (identityMat (numRows ([[1, 2], [3, 4]] : Mat ℚ)))))))).e) :=
  kopt_double_joint_single_pass.2 [[1, 2], [3, 4]] [[2, 1], [4, 3]] none none 2
    (by decide) (by decide)

/-- C4 (amended): in the single-sided refiner an accepted candidate whose
error is at most `1e-8` is the last candidate evaluated in the whole run,
whose result is returned immediately with exactly that error.  In the
double-sided refiner such an accept only terminates the inner loop over the
right-hand permutations (`break`): the accepted entry ends the inner trace
and sets the break flag, candidates for later left-hand permutations are
still evaluated, and the error finally returned is still at most `1e-8`. -/
theorem kopt_tol_early_stop :
    (∀ (f : Mat ℚ → ℚ) (perms : List (List ℕ)) (fuel : ℕ) (p : Mat ℚ) (e : ℚ)
      (i : ℕ) (x : ℚ × Bool),
      (loopS f perms fuel p e).2.1[i]? = some x → x.2 = true → x.1 ≤ koptTol →
      i = (loopS f perms fuel p e).2.1.length - 1 ∧
      Option.map Prod.snd (loopS f perms fuel p e).1 = some x.1) ∧
    (∀ (a b : Mat ℚ) (perm1 : List ℕ) (perms2 : List (List ℕ)) (p1 p2 : Mat ℚ) (e : ℚ)
      (i : ℕ) (x : ℚ × Bool),
      (scanInner a b perm1 perms2 p1 p2 e).trace[i]? = some x → x.2 = true →
      x.1 ≤ koptTol →
      i = (scanInner a b perm1 perms2 p1 p2 e).trace.length - 1 ∧
      (scanInner a b perm1 perms2 p1 p2 e).brk = true) ∧
    (∀ (a b : Mat ℚ) (perms1 perms2 : List (List ℕ)) (p1 p2 : Mat ℚ) (e : ℚ) (x : ℚ),
      x ∈ acceptedOf (scanOuter a b perms2 perms1 p1 p2 e).trace → x ≤ koptTol →
      (scanOuter a b perms2 perms1 p1 p2 e).e ≤ koptTol) := by
  refine ⟨loopS_tol_stop, ?_, ?_⟩
  · intro a b perm1 perms2 p1 p2 e i x h hacc htol
    obtain ⟨hlen, hbrk, _⟩ := scanInner_tol_stop a b perm1 perms2 p1 p2 e i x h hacc htol
    exact ⟨hlen, hbrk⟩
  · intro a b perms1 perms2 p1 p2 e x hx htol
    exact scanOuter_tol_keep a b perms1 perms2 p1 p2 e x hx htol

/-- Witness for the early-stop theorem at concrete runs: a single-sided
scan accepting a perfect candidate at once, and the inner/outer scans of
the concrete double-sided counterexample run. -/
theorem kopt_tol_early_stop_witness :
    ((0 : ℕ) = (loopS (fun p => frobSq (matSub p [[0, 1], [1, 0]])) (kperms 2 2) 1
        (identityMat 2) (frobSq (matSub (identityMat 2) [[0, 1], [1, 0]]))).2.1.length - 1 ∧
      Option.map Prod.snd (loopS (fun p => frobSq (matSub p [[0, 1], [1, 0]])) (kperms 2 2) 1
        (identityMat 2) (frobSq (matSub (identityMat 2) [[0, 1], [1, 0]]))).1 =
        some (((0 : ℚ), true)).1) ∧
    ((0 : ℕ) = (scanInner [[1, 2], [3, 4]] [[2, 1], [4, 3]] [0, 1] (kperms 2 2)
        (identityMat 2) (identityMat 2) 4).trace.length - 1 ∧
      (scanInner [[1, 2], [3, 4]] [[2, 1], [4, 3]] [0, 1] (kperms 2 2)
        (identityMat 2) (identityMat 2) 4).brk = true) ∧
    (scanOuter [[1, 2], [3, 4]] [[2, 1], [4, 3]] (kperms 2 2) (kperms 2 2)
        (identityMat 2) (identityMat 2) 4).e ≤ koptTol := by
  refine ⟨?_, ?_, ?_⟩
  · refine kopt_tol_early_stop.1 (fun p => frobSq (matSub p [[0, 1], [1, 0]])) (kperms 2 2) 1
      (identityMat 2) (frobSq (matSub (identityMat 2) [[0, 1], [1, 0]])) 0 ((0 : ℚ), true)
      ?_ rfl (by norm_num [koptTol])
    norm_num [loopS, scanCols, kperms, kpermsAux, sortNat, applyColsPerm, sigmaOf, koptTol,
      matSub, frobSq, numCols, numRows, identityMat, List.insertionSort, List.orderedInsert,
      List.indexOf, List.findIdx, List.findIdx.go, List.getD, List.range, List.range.loop,
      cond_eq_if, List.getElem?_cons_zero, List.getElem?_cons_succ, List.getElem?_nil,
      List.flatMap, List.erase]
  · refine kopt_tol_early_stop.2.1 [[1, 2], [3, 4]] [[2, 1], [4, 3]] [0, 1] (kperms 2 2)
      (identityMat 2) (identityMat 2) 4 0 ((0 : ℚ), true) ?_ rfl (by norm_num [koptTol])
    norm_num [scanInner, kperms, kpermsAux, sortNat, compute_error, matMul, matSub, frobSq,
      transposeM, colOf, dotList, numCols, numRows, identityMat, applyRowsPerm, sigmaOf,
      koptTol, List.insertionSort, List.orderedInsert, List.indexOf, List.findIdx,
      List.findIdx.go, List.getD, List.range, List.range.loop, cond_eq_if,
      List.getElem?_cons_zero, List.getElem?_cons_succ, List.getElem?_nil, List.flatMap,
      List.erase]
  · refine kopt_tol_early_stop.2.2 [[1, 2], [3, 4]] [[2, 1], [4, 3]] (kperms 2 2) (kperms 2 2)
      (identityMat 2) (identityMat 2) 4 0 ?_ (by norm_num [koptTol])
    norm_num [scanOuter, scanInner, kperms, kpermsAux, sortNat, compute_error, matMul,
      matSub, frobSq, transposeM, colOf, dotList, numCols, numRows, identityMat,
      applyRowsPerm, sigmaOf, koptTol, acceptedOf, List.insertionSort, List.orderedInsert,
      List.indexOf, List.findIdx, List.findIdx.go, List.getD, List.range, List.range.loop,
      cond_eq_if, List.getElem?_cons_zero, List.getElem?_cons_succ, List.getElem?_nil,
      List.flatMap, List.erase]

/-! ### Termination of the single-sided refiner -/

lemma getD_range {n j : ℕ} (h : j < n) : (List.range n).getD j 0 = j := by
  rw [List.getD_eq_getElem _ _ (by simpa using h)]
  simp

lemma reindexBy_self {p : Mat ℚ} (hsq : ∀ r ∈ p, r.length = numRows p) :
    reindexBy p (List.range (numRows p)) = p := by
  unfold reindexBy
  conv_rhs => rw [← List.map_id p]
  refine List.map_congr_left (fun r hr => ?_)
  have : ∀ j < r.length, (List.range (numRows p)).getD j 0 = j := by
    intro j hj
    exact getD_range (by rw [← hsq r hr]; exact hj)
  calc (List.range r.length).map (fun j => r.getD ((List.range (numRows p)).getD j 0) 0)
      = (List.range r.length).map (fun j => r.getD j 0) := by
        refine List.map_congr_left (fun j hj => ?_)
        rw [this j (List.mem_range.1 hj)]
    _ = r := map_getD_range_self r 0

lemma applyColsPerm_reindexBy {p : Mat ℚ} {n : ℕ} (hsq : ∀ r ∈ p, r.length = n)
    {perm : List ℕ} (hmem : ∀ x ∈ perm, x < n) (π : List ℕ) :
    applyColsPerm (reindexBy p π) perm =
      reindexBy p ((List.range n).map (fun j => π.getD (sigmaOf perm j) 0)) := by
  unfold applyColsPerm reindexBy
  rw [List.map_map]
  refine List.map_congr_left (fun r hr => ?_)
  simp only [Function.comp_def]
  have hlen : ((List.range r.length).map (fun j => r.getD (π.getD j 0) 0)).length = r.length := by
    simp
  rw [hlen, hsq r hr]
  refine List.map_congr_left (fun j hj => ?_)
  have hj' : j < n := List.mem_range.1 hj
  have hσ : sigmaOf perm j < n := sigmaOf_lt hmem hj'
  rw [getD_map_range (fun i => r.getD (π.getD i 0) 0) hσ 0,
    getD_map_range (fun i => π.getD (sigmaOf perm i) 0) hj' 0]

lemma mapped_perm {π : List ℕ} {n : ℕ} (hπ : List.Perm π (List.range n))
    {perm : List ℕ} (hnd : perm.Nodup) (hmem : ∀ x ∈ perm, x < n) :
    List.Perm ((List.range n).map (fun j => π.getD (sigmaOf perm j) 0)) (List.range n) := by
  have hL : List.Perm ((List.range n).map (sigmaOf perm)) (List.range n) := by
    refine List.Subperm.perm_of_length_le ?_ (by simp)
    refine List.Nodup.subperm ?_ ?_
    · exact (List.nodup_range n).map (sigmaOf_injective hnd)
    · intro x hx
      simp only [List.mem_map, List.mem_range] at hx
      obtain ⟨j, hj, rfl⟩ := hx
      exact List.mem_range.2 (sigmaOf_lt hmem hj)
  have hcomp : (List.range n).map (fun j => π.getD (sigmaOf perm j) 0) =
      ((List.range n).map (sigmaOf perm)).map (fun i => π.getD i 0) := by
    rw [List.map_map]
    rfl
  rw [hcomp]
  have h1 : List.Perm (((List.range n).map (sigmaOf perm)).map (fun i => π.getD i 0))
      ((List.range n).map (fun i => π.getD i 0)) := hL.map _
  have hlen : π.length = n := by simpa using hπ.length_eq
  have h2 : (List.range n).map (fun i => π.getD i 0) = π := by
    rw [← hlen]
    exact map_getD_range_self π 0
  exact h1.trans (h2.symm ▸ hπ)

lemma foldl_reindex {p0 : Mat ℚ} {n k : ℕ} (hsq : ∀ r ∈ p0, r.length = n) :
    ∀ (moves : List (List ℕ)), (∀ mv ∈ moves, mv ∈ kperms n k) →
    ∀ π, List.Perm π (List.range n) →
    ∃ π', List.Perm π' (List.range n) ∧
      List.foldl applyColsPerm (reindexBy p0 π) moves = reindexBy p0 π' := by
  intro moves
  induction moves with
  | nil => intro _ π hπ; exact ⟨π, hπ, by simp⟩
  | cons mv t ih =>
    intro hmv π hπ
    obtain ⟨hnd, hmem, _⟩ := kperms_sound (hmv mv (List.mem_cons_self _ _))
    simp only [List.foldl_cons]
    rw [applyColsPerm_reindexBy hsq hmem π]
    exact ih (fun x hx => hmv x (List.mem_cons_of_mem _ hx)) _ (mapped_perm hπ hnd hmem)

lemma valuesOn_mem {f : Mat ℚ → ℚ} {p0 : Mat ℚ} {π : List ℕ}
    (hπ : List.Perm π (List.range (numRows p0))) : f (reindexBy p0 π) ∈ valuesOn f p0 := by
  unfold valuesOn
  exact List.mem_map_of_mem _ (List.mem_permutations.2 hπ)

lemma filter_lt_strict_sublist {v' v : ℚ} {l : List ℚ} (hv' : v' ∈ l) (hlt : v' < v) :
    (l.filter (fun x => decide (x < v'))).length < (l.filter (fun x => decide (x < v))).length := by
  have hsub : (l.filter (fun x => decide (x < v'))).Sublist (l.filter (fun x => decide (x < v))) := by
    refine List.monotone_filter_right l (fun a ha => ?_)
    rw [decide_eq_true_eq] at ha ⊢
    exact lt_trans ha hlt
  rcases lt_or_eq_of_le hsub.length_le with h | h
  · exact h
  · exfalso
    have heq := hsub.eq_of_length h
    have hmem : v' ∈ l.filter (fun x => decide (x < v)) := by
      rw [List.mem_filter]
      exact ⟨hv', by simpa using hlt⟩
    rw [← heq, List.mem_filter] at hmem
    simpa using hmem.2

lemma loopS_terminates {f : Mat ℚ → ℚ} {p0 : Mat ℚ} {k : ℕ}
    (hsq : ∀ r ∈ p0, r.length = numRows p0) :
    ∀ (fuel : ℕ) (π : List ℕ), List.Perm π (List.range (numRows p0)) →
    ((valuesOn f p0).dedup.filter
      (fun v => decide (v < f (reindexBy p0 π)))).length < fuel →
    (loopS f (kperms (numRows p0) k) fuel (reindexBy p0 π) (f (reindexBy p0 π))).1.isSome
      = true := by
  intro fuel
  induction fuel with
  | zero => intro π _ h; omega
  | succ fuel ih =>
    intro π hπ hcount
    simp only [loopS]
    by_cases hearly : (scanCols f (kperms (numRows p0) k)
        (reindexBy p0 π) (f (reindexBy p0 π)) false).early = true
    · simp [if_pos hearly]
    · simp only [if_neg hearly]
      by_cases hsearch : (scanCols f (kperms (numRows p0) k)
          (reindexBy p0 π) (f (reindexBy p0 π)) false).search = true
      · simp only [if_pos hsearch]
        obtain ⟨hfold, hmv⟩ := scanCols_moves f (kperms (numRows p0) k)
          (reindexBy p0 π) (f (reindexBy p0 π)) false
        obtain ⟨π', hπ', hre⟩ := foldl_reindex hsq _ hmv π hπ
        rw [← hfold] at hre
        have hlt : (scanCols f (kperms (numRows p0) k)
            (reindexBy p0 π) (f (reindexBy p0 π)) false).e < f (reindexBy p0 π) := by
          rcases scanCols_search_lt f (kperms (numRows p0) k)
            (reindexBy p0 π) (f (reindexBy p0 π)) false hsearch with h | h
          · exact absurd h (by simp)
          · exact h
        have hfe : (scanCols f (kperms (numRows p0) k)
            (reindexBy p0 π) (f (reindexBy p0 π)) false).e = f (reindexBy p0 π') := by
          rw [scanCols_error_fun f (kperms (numRows p0) k)
            (reindexBy p0 π) (f (reindexBy p0 π)) false rfl, hre]
        have hcount' : ((valuesOn f p0).dedup.filter
            (fun v => decide (v < f (reindexBy p0 π')))).length < fuel := by
          have hmem' : f (reindexBy p0 π') ∈ (valuesOn f p0).dedup :=
            List.mem_dedup.2 (valuesOn_mem hπ')
          have := filter_lt_strict_sublist hmem' (hfe ▸ hlt)
          omega
        have := ih π' hπ' hcount'
        rw [hre, hfe]
        exact this
      · simp [if_neg hsearch]

lemma loopS_succ_unfold (f : Mat ℚ → ℚ) (perms : List (List ℕ)) (m : ℕ) (p : Mat ℚ)
    (e : ℚ) : loopS f perms (m + 1) p e =
      (let r := scanCols f perms p e false
       if r.early then (some (r.p, r.e), r.trace, r.moves)
       else if r.search then
         (let rc := loopS f perms m r.p r.e
          (rc.1, r.trace ++ rc.2.1, r.moves ++ rc.2.2))
       else (some (r.p, r.e), r.trace, r.moves)) := rfl

lemma loopS_fuel_succ (f : Mat ℚ → ℚ) (perms : List (List ℕ)) :
    ∀ (fuel : ℕ) (p : Mat ℚ) (e : ℚ), (loopS f perms fuel p e).1.isSome = true →
    loopS f perms (fuel + 1) p e = loopS f perms fuel p e := by
  intro fuel
  induction fuel with
  | zero => intro p e h; simp [loopS] at h
  | succ fuel ih =>
    intro p e h
    rw [loopS_succ_unfold f perms fuel p e] at h
    rw [loopS_succ_unfold f perms (fuel + 1) p e, loopS_succ_unfold f perms fuel p e]
    simp only at h ⊢
    by_cases hearly : (scanCols f perms p e false).early = true
    · simp [if_pos hearly]
    · simp only [if_neg hearly] at h ⊢
      by_cases hsearch : (scanCols f perms p e false).search = true
      · simp only [if_pos hsearch] at h ⊢
        rw [ih (scanCols f perms p e false).p (scanCols f perms p e false).e (by simpa using h)]
      · simp [if_neg hsearch]

lemma loopS_fuel_ge (f : Mat ℚ → ℚ) (perms : List (List ℕ)) (p : Mat ℚ) (e : ℚ)
    (fuel : ℕ) (h : (loopS f perms fuel p e).1.isSome = true) :
    ∀ d, loopS f perms (fuel + d) p e = loopS f perms fuel p e := by
  intro d
  induction d with
  | zero => rfl
  | succ d ih =>
    have : fuel + (d + 1) = (fuel + d) + 1 := by omega
    rw [this, loopS_fuel_succ f perms (fuel + d) p e (by rw [ih]; exact h), ih]

/-- C10: the single-sided refiner terminates.  Every pass either strictly
decreases the stored error or is the final pass, and the error always lies
in the finite set of values of `fun` on column reindexings of `p0`, so
`koptBound` — the number of distinct such values — bounds the number of
passes: with more fuel than that the loop completes, and the result no
longer depends on the fuel. -/
theorem kopt_single_terminates (f : Mat ℚ → ℚ) (p0 : Mat ℚ) (k : ℕ)
    (hsq : ∀ r ∈ p0, r.length = numRows p0) (hsquare : numRows p0 = numCols p0)
    (hk2 : ¬k < 2) (hkn : ¬numRows p0 < k) :
    ∀ fuel, koptBound f p0 < fuel →
    resultReady (kopt_heuristic_single f p0 k fuel) = true ∧
    kopt_heuristic_single f p0 k fuel = kopt_heuristic_single f p0 k (koptBound f p0 + 1) := by
  intro fuel hfuel
  have hself := reindexBy_self hsq
  have hperm : List.Perm (List.range (numRows p0)) (List.range (numRows p0)) := List.Perm.refl _
  have hv0 : f p0 ∈ (valuesOn f p0).dedup := by
    have h : f (reindexBy p0 (List.range (numRows p0))) ∈ valuesOn f p0 :=
      valuesOn_mem hperm
    rw [hself] at h
    exact List.mem_dedup.2 h
  have hcount : ((valuesOn f p0).dedup.filter
      (fun v => decide (v < f p0))).length < koptBound f p0 := by
    unfold koptBound
    have hsub : List.Sublist ((valuesOn f p0).dedup.filter (fun v => decide (v < f p0)))
        ((valuesOn f p0).dedup) := by apply List.filter_sublist
    rcases lt_or_eq_of_le hsub.length_le with h | h
    · exact h
    · exfalso
      have heq := hsub.eq_of_length h
      have hmemf : f p0 ∈ (valuesOn f p0).dedup.filter (fun v => decide (v < f p0)) := by
        rw [heq]
        exact hv0
      rw [List.mem_filter] at hmemf
      simpa using hmemf.2
  have hterm : ∀ fl, koptBound f p0 < fl →
      (loopS f (kperms (numRows p0) k) fl p0 (f p0)).1.isSome = true := by
    intro fl hfl
    have hterm1 : (loopS f (kperms (numRows p0) k) fl
        (reindexBy p0 (List.range (numRows p0)))
        (f (reindexBy p0 (List.range (numRows p0))))).1.isSome = true :=
      loopS_terminates hsq fl (List.range (numRows p0)) hperm (by rw [hself]; omega)
    rwa [hself] at hterm1
  have hstable : loopS f (kperms (numRows p0) k) fuel p0 (f p0) =
      loopS f (kperms (numRows p0) k) (koptBound f p0 + 1) p0 (f p0) := by
    have hbase := hterm (koptBound f p0 + 1) (by omega)
    have h1 := loopS_fuel_ge f (kperms (numRows p0) k) p0 (f p0) (koptBound f p0 + 1)
      hbase (fuel - (koptBound f p0 + 1))
    have : koptBound f p0 + 1 + (fuel - (koptBound f p0 + 1)) = fuel := by omega
    rw [this] at h1
    exact h1
  constructor
  · unfold kopt_heuristic_single resultReady
    rw [if_neg hk2, if_neg (by omega), if_neg hkn]
    have := hterm fuel hfuel
    obtain ⟨r, hr⟩ := Option.isSome_iff_exists.1 this
    rw [hr]
  · unfold kopt_heuristic_single
    have hne : ¬numRows p0 ≠ numCols p0 := by omega
    simp only [if_neg hk2, if_neg hne, if_neg hkn, hstable]

/-- Witness: with fuel one past the bound, a concrete run completes. -/
theorem kopt_single_terminates_witness :
    resultReady (kopt_heuristic_single (fun p => frobSq (matSub p [[0, 1], [1, 0]]))
      (identityMat 2) 2
      (koptBound (fun p => frobSq (matSub p [[0, 1], [1, 0]])) (identityMat 2) + 1)) = true :=
  (kopt_single_terminates (fun p => frobSq (matSub p [[0, 1], [1, 0]])) (identityMat 2) 2
    (by decide) (by decide) (by decide) (by decide)
    (koptBound (fun p => frobSq (matSub p [[0, 1], [1, 0]])) (identityMat 2) + 1)
    (Nat.lt_succ_self _)).1

/-! ### The trimming loops of `hide_zero_padding` compute row/column filters -/

lemma eraseRowLoop_eq {α : Type} [LinearOrderedField α] (tol : α) :
    ∀ (n : ℕ) (P S : Mat α), P.length = n →
    eraseRowLoop tol ((List.range n).reverse) (P ++ S) =
      P.filter (fun r => !decide (rowAbsSum r < tol)) ++ S := by
  intro n
  induction n with
  | zero =>
    intro P S hP
    rw [List.length_eq_zero] at hP
    subst hP
    simp [eraseRowLoop]
  | succ n ih =>
    intro P S hP
    rcases P.eq_nil_or_concat with rfl | ⟨P', r, rfl⟩
    · simp at hP
    · have hP' : P'.length = n := by simpa using hP
      simp only [List.concat_eq_append] at hP ⊢
      rw [List.range_succ, List.reverse_append, List.reverse_singleton,
        List.singleton_append]
      simp only [eraseRowLoop]
      have hgd : (P' ++ [r] ++ S).getD n [] = r := by
        rw [List.append_assoc, List.getD_append_right P' ([r] ++ S) [] n (le_of_eq hP')]
        simp [hP']
      rw [hgd]
      by_cases hr : rowAbsSum r < tol
      · rw [if_pos hr]
        have herase : (P' ++ [r] ++ S).eraseIdx n = P' ++ S := by
          rw [List.append_assoc, List.eraseIdx_append_of_length_le (by omega), hP']
          simp
        rw [herase, ih P' S hP', List.filter_append]
        simp [hr]
      · rw [if_neg hr]
        rw [List.append_assoc, ih P' ([r] ++ S) hP', List.filter_append]
        simp [hr, List.append_assoc]

lemma getD_eraseIdx_lt {α : Type} {r : List α} {n j : ℕ} (hj : j < n) (hn : n ≤ r.length)
    (d : α) : (r.eraseIdx n).getD j d = r.getD j d := by
  rw [List.eraseIdx_eq_take_drop_succ]
  have hlen : (r.take n).length = n := by
    rw [List.length_take]
    omega
  have hjt : j < (r.take n).length := by omega
  rw [List.getD_append (r.take n) (r.drop (n + 1)) d j hjt]
  have hjr : j < r.length := by omega
  rw [List.getD_eq_getElem _ _ hjt, List.getD_eq_getElem _ _ hjr]
  exact List.getElem_take r

lemma eraseColLoop_eq {α : Type} [LinearOrderedField α] (tol : α) :
    ∀ (n : ℕ) (M : Mat α), (∀ r ∈ M, n ≤ r.length) →
    eraseColLoop tol ((List.range n).reverse) M =
      M.map (fun r =>
        (((List.range n).filter (fun j => !decide (colAbsSum M j < tol))).map
          (fun j => r.getD j 0)) ++ r.drop n) := by
  intro n
  induction n with
  | zero =>
    intro M _
    simp [eraseColLoop]
  | succ n ih =>
    intro M hM
    rw [List.range_succ, List.reverse_append, List.reverse_singleton, List.singleton_append]
    simp only [eraseColLoop]
    by_cases hc : colAbsSum M n < tol
    · rw [if_pos hc]
      have hM' : ∀ r ∈ M.map (fun r => r.eraseIdx n), n ≤ r.length := by
        intro r' hr'
        simp only [List.mem_map] at hr'
        obtain ⟨r, hr, rfl⟩ := hr'
        rw [List.length_eraseIdx]
        have := hM r hr
        split <;> omega
      rw [ih _ hM', List.map_map]
      have hcol : ∀ j < n, colAbsSum (M.map (fun r => r.eraseIdx n)) j = colAbsSum M j := by
        intro j hj
        unfold colAbsSum
        rw [List.map_map]
        refine congrArg List.sum (List.map_congr_left (fun r hr => ?_))
        simp only [Function.comp_def]
        rw [getD_eraseIdx_lt hj (by have := hM r hr; omega)]
      refine List.map_congr_left (fun r hr => ?_)
      simp only [Function.comp_def]
      have hfil : (List.range n).filter
          (fun j => !decide (colAbsSum (M.map (fun r => r.eraseIdx n)) j < tol)) =
          (List.range n).filter (fun j => !decide (colAbsSum M j < tol)) := by
        refine List.filter_congr (fun j hj => ?_)
        rw [hcol j (List.mem_range.1 hj)]
      rw [hfil]
      have hmapr : ((List.range n).filter (fun j => !decide (colAbsSum M j < tol))).map
          (fun j => (r.eraseIdx n).getD j 0) =
          ((List.range n).filter (fun j => !decide (colAbsSum M j < tol))).map
          (fun j => r.getD j 0) := by
        refine List.map_congr_left (fun j hj => ?_)
        have hj' : j < n := List.mem_range.1 (List.mem_of_mem_filter hj)
        exact getD_eraseIdx_lt hj' (by have := hM r hr; omega) 0
      rw [hmapr]
      have hdrop : (r.eraseIdx n).drop n = r.drop (n + 1) := by
        rw [List.eraseIdx_eq_take_drop_succ]
        have hlen : (r.take n).length = n := by
          rw [List.length_take]
          have := hM r hr
          omega
        have hstep : (r.take n ++ r.drop (n + 1)).drop n =
            (r.take n ++ r.drop (n + 1)).drop ((r.take n).length) := by
          rw [hlen]
        rw [hstep, List.drop_left]
      rw [hdrop]
      have hfil2 : (List.range n ++ [n]).filter (fun j => !decide (colAbsSum M j < tol)) =
          (List.range n).filter (fun j => !decide (colAbsSum M j < tol)) := by
        rw [List.filter_append]
        simp [hc]
      rw [hfil2]
    · rw [if_neg hc]
      rw [ih M (fun r hr => by have := hM r hr; omega)]
      refine List.map_congr_left (fun r hr => ?_)
      have hfil2 : (List.range n ++ [n]).filter (fun j => !decide (colAbsSum M j < tol)) =
          ((List.range n).filter (fun j => !decide (colAbsSum M j < tol))) ++ [n] := by
        rw [List.filter_append]
        simp [hc]
      rw [hfil2, List.map_append]
      have hdrop : r.drop n = r.getD n 0 :: r.drop (n + 1) := by
        have hn : n < r.length := by have := hM r hr; omega
        rw [List.getD_eq_getElem _ _ hn]
        exact List.drop_eq_getElem_cons hn
      rw [hdrop]
      simp

/-- C5 counterexample: `hide_zero_padding` removes a leading all-zero row
even though the matrix has no trailing near-zero rows, contradicting the
trailing-only trimming the claim describes. -/
theorem hide_zero_padding_drops_leading_zero_rows :
    hide_zero_padding qtol ([[0], [1]] : Mat ℚ) = [[1]] ∧
    ([[1]] : Mat ℚ) ≠ [[0], [1]] := by
  constructor
  · norm_num [hide_zero_padding, eraseRowLoop, eraseColLoop, rowAbsSum, colAbsSum, numCols,
      numRows, qtol, List.range, List.range.loop, List.getD, List.getElem?_cons_zero,
      List.getElem?_cons_succ, List.getElem?_nil]
  · decide

/-- C5 (amended): `hide_zero_padding` removes every row whose sum of
absolute entries is `< tol` — wherever it lies, not only trailing ones —
and then every such column of the row-filtered matrix (the per-row
condition is a sum bound with a strict inequality, not a per-entry
`|value| ≤ tol` test). -/
theorem hide_zero_padding_eq_filter {α : Type} [LinearOrderedField α] (tol : α) (M : Mat α)
    (hrect : ∀ r ∈ M, r.length = numCols M) :
    hide_zero_padding tol M = filterRowsCols tol M := by
  unfold hide_zero_padding filterRowsCols
  have hrow : eraseRowLoop tol ((List.range (numRows M)).reverse) M =
      M.filter (fun r => !decide (rowAbsSum r < tol)) := by
    have := eraseRowLoop_eq tol (numRows M) M [] rfl
    simpa using this
  rw [hrow]
  have hcols : ∀ r ∈ M.filter (fun r => !decide (rowAbsSum r < tol)),
      numCols M ≤ r.length := by
    intro r hr
    rw [hrect r (List.mem_of_mem_filter hr)]
  rw [eraseColLoop_eq tol (numCols M) _ hcols]
  refine List.map_congr_left (fun r hr => ?_)
  have hlen : r.length = numCols M := hrect r (List.mem_of_mem_filter hr)
  rw [List.drop_eq_nil_of_le (by omega)]
  simp

/-- Witness: the loop form and the filter form agree on a concrete
rectangular matrix with an interior zero row. -/
theorem hide_zero_padding_eq_filter_witness :
    hide_zero_padding qtol ([[0, 0], [1, 2], [0, 0]] : Mat ℚ) =
      filterRowsCols qtol [[0, 0], [1, 2], [0, 0]] :=
  hide_zero_padding_eq_filter qtol [[0, 0], [1, 2], [0, 0]] (by decide)

/-! ### Round trip of `zero_padding` and `hide_zero_padding` -/

lemma paddedFrom_refl {α : Type} [LinearOrderedField α] (x : Mat α) : PaddedFrom x x :=
  ⟨0, [], by simp, by simp⟩

lemma PaddedFrom.padRows {α : Type} [LinearOrderedField α] {y x : Mat α}
    (h : PaddedFrom y x) (t : ℕ) : PaddedFrom (padRowsTo y t) x := by
  obtain ⟨dc, Z, hZ, rfl⟩ := h
  unfold padRowsTo
  split
  · refine ⟨dc, Z ++ List.replicate (t - numRows (x.map (fun r =>
      r ++ List.replicate dc 0) ++ Z)) (List.replicate (numCols (x.map (fun r =>
      r ++ List.replicate dc 0) ++ Z)) 0), ?_, by rw [List.append_assoc]⟩
    intro r hr v hv
    rcases List.mem_append.1 hr with hr | hr
    · exact hZ r hr v hv
    · rw [List.eq_of_mem_replicate hr] at hv
      exact List.eq_of_mem_replicate hv
  · exact ⟨dc, Z, hZ, rfl⟩

lemma PaddedFrom.padCols {α : Type} [LinearOrderedField α] {y x : Mat α}
    (h : PaddedFrom y x) (t : ℕ) : PaddedFrom (padColsTo y t) x := by
  obtain ⟨dc, Z, hZ, rfl⟩ := h
  unfold padColsTo
  split
  · refine ⟨dc + (t - numCols (x.map (fun r => r ++ List.replicate dc 0) ++ Z)), Z.map
      (fun r => r ++ List.replicate (t - numCols (x.map (fun r =>
        r ++ List.replicate dc 0) ++ Z)) 0), ?_, ?_⟩
    · intro r hr v hv
      simp only [List.mem_map] at hr
      obtain ⟨r0, hr0, rfl⟩ := hr
      rcases List.mem_append.1 hv with hv | hv
      · exact hZ r0 hr0 v hv
      · exact List.eq_of_mem_replicate hv
    · rw [List.map_append, List.map_map]
      congr 1
      refine List.map_congr_left (fun r _ => ?_)
      simp only [Function.comp_def]
      rw [List.append_assoc, ← List.replicate_add]
  · exact ⟨dc, Z, hZ, rfl⟩

lemma zero_padding_branch {α : Type} [LinearOrderedField α]
    {x1 x2 y1 y2 : Mat α} {row column : Bool} (u1 u2 : Mat α)
    (hb1 : PaddedFrom u1 x1) (hb2 : PaddedFrom u2 x2)
    (h : (if shape u1 = shape u2 then some (u1, u2)
      else if row ∧ column then
        some (padColsTo (padRowsTo u1 (numRows u2)) (numCols (padRowsTo u2 (numRows u1))),
          padColsTo (padRowsTo u2 (numRows u1)) (numCols (padRowsTo u1 (numRows u2))))
      else if row then some (padRowsTo u1 (numRows u2), padRowsTo u2 (numRows u1))
      else if column then some (padColsTo u1 (numCols u2), padColsTo u2 (numCols u1))
      else none) = some (y1, y2)) : PaddedFrom y1 x1 ∧ PaddedFrom y2 x2 := by
  split_ifs at h <;> simp only [Option.some.injEq, Prod.mk.injEq] at h
  · exact ⟨h.1 ▸ hb1, h.2 ▸ hb2⟩
  · exact ⟨h.1 ▸ (hb1.padRows _).padCols _, h.2 ▸ (hb2.padRows _).padCols _⟩
  · exact ⟨h.1 ▸ hb1.padRows _, h.2 ▸ hb2.padRows _⟩
  · exact ⟨h.1 ▸ hb1.padCols _, h.2 ▸ hb2.padCols _⟩

lemma zero_padding_paddedFrom {α : Type} [LinearOrderedField α]
    {x1 x2 y1 y2 : Mat α} {row column square : Bool}
    (h : zero_padding x1 x2 row column square = some (y1, y2)) :
    PaddedFrom y1 x1 ∧ PaddedFrom y2 x2 := by
  unfold zero_padding at h
  simp only at h
  by_cases hsq : square = true
  · rw [if_pos hsq, if_pos hsq] at h
    exact zero_padding_branch _ _ (((paddedFrom_refl x1).padRows _).padCols _)
      (((paddedFrom_refl x2).padRows _).padCols _) h
  · rw [if_neg hsq, if_neg hsq] at h
    exact zero_padding_branch _ _ (paddedFrom_refl x1) (paddedFrom_refl x2) h

lemma rowAbsSum_all_zero {α : Type} [LinearOrderedField α] {z : List α}
    (hz : ∀ v ∈ z, v = 0) : rowAbsSum z = 0 := by
  unfold rowAbsSum
  refine List.sum_eq_zero (fun x hx => ?_)
  simp only [List.mem_map] at hx
  obtain ⟨v, hv, rfl⟩ := hx
  rw [hz v hv]
  simp

lemma rowAbsSum_append_zeros {α : Type} [LinearOrderedField α] {r z : List α}
    (hz : ∀ v ∈ z, v = 0) : rowAbsSum (r ++ z) = rowAbsSum r := by
  unfold rowAbsSum
  rw [List.map_append, List.sum_append]
  have : ((z.map (fun x => |x|)).sum) = 0 := rowAbsSum_all_zero hz
  unfold rowAbsSum at this
  rw [this, add_zero]

lemma getD_replicate_zero {α : Type} [LinearOrderedField α] (n i : ℕ) :
    (List.replicate n (0 : α)).getD i 0 = 0 := by
  by_cases h : i < n
  · rw [List.getD_eq_getElem _ _ (by simpa using h)]
    simp
  · rw [List.getD_eq_default _ _ (by simpa using not_lt.1 h)]

lemma hide_zero_padding_of_padded {α : Type} [LinearOrderedField α] {tol : α}
    (htol : 0 < tol) {x y : Mat α} (hrect : ∀ r ∈ x, r.length = numCols x)
    (hrows : ∀ r ∈ x, ¬rowAbsSum r < tol) (hcols : ∀ j < numCols x, ¬colAbsSum x j < tol)
    (hy : PaddedFrom y x) : hide_zero_padding tol y = x := by
  obtain ⟨dc, Z, hZ, rfl⟩ := hy
  have hZdrop : ∀ z ∈ Z, rowAbsSum z < tol := by
    intro z hz
    rw [rowAbsSum_all_zero (hZ z hz)]
    exact htol
  have hM1 : (x.map (fun r => r ++ List.replicate dc 0) ++ Z).filter
      (fun r => !decide (rowAbsSum r < tol)) = x.map (fun r => r ++ List.replicate dc 0) := by
    rw [List.filter_append]
    have h1 : (x.map (fun r => r ++ List.replicate dc 0)).filter
        (fun r => !decide (rowAbsSum r < tol)) = x.map (fun r => r ++ List.replicate dc 0) := by
      rw [List.filter_eq_self]
      intro r' hr'
      simp only [List.mem_map] at hr'
      obtain ⟨r, hr, rfl⟩ := hr'
      rw [rowAbsSum_append_zeros (fun v hv => List.eq_of_mem_replicate hv)]
      simpa using hrows r hr
    have h2 : Z.filter (fun r => !decide (rowAbsSum r < tol)) = [] := by
      rw [List.filter_eq_nil_iff]
      intro z hz
      simpa using hZdrop z hz
    rw [h1, h2, List.append_nil]
  cases x with
  | nil =>
    -- empty original: every row of y is all-zero and gets removed; the
    -- column loop then acts on the empty matrix.
    unfold hide_zero_padding
    have hrows0 : eraseRowLoop tol ((List.range
        (numRows (List.map (fun r => r ++ List.replicate dc 0) [] ++ Z))).reverse)
        (List.map (fun r => r ++ List.replicate dc 0) [] ++ Z) = [] := by
      have := eraseRowLoop_eq tol (numRows (List.map (fun r =>
        r ++ List.replicate dc 0) [] ++ Z)) (List.map (fun r =>
        r ++ List.replicate dc 0) [] ++ Z) [] rfl
      rw [List.append_nil] at this
      rw [this]
      simpa using hM1
    rw [hrows0]
    have : ∀ l : List ℕ, eraseColLoop tol l ([] : Mat α) = [] := by
      intro l
      induction l with
      | nil => rfl
      | cons j t ih => simp only [eraseColLoop, colAbsSum, List.map_nil, List.sum_nil]; rw [if_pos htol]; exact ih
    rw [this]
  | cons r0 t =>
    set nx := numCols (r0 :: t) with hnx
    have hr0len : r0.length = nx := hrect r0 (List.mem_cons_self _ _)
    have hny : numCols ((r0 :: t).map (fun r => r ++ List.replicate dc 0) ++ Z) = nx + dc := by
      simp only [numCols, List.map_cons, List.cons_append, List.headD_cons]
      rw [List.length_append, hr0len, List.length_replicate]
    unfold hide_zero_padding
    rw [hny]
    have hrowstage : eraseRowLoop tol ((List.range
        (numRows ((r0 :: t).map (fun r => r ++ List.replicate dc 0) ++ Z))).reverse)
        ((r0 :: t).map (fun r => r ++ List.replicate dc 0) ++ Z) =
        (r0 :: t).map (fun r => r ++ List.replicate dc 0) := by
      have := eraseRowLoop_eq tol (numRows ((r0 :: t).map (fun r =>
        r ++ List.replicate dc 0) ++ Z)) ((r0 :: t).map (fun r =>
        r ++ List.replicate dc 0) ++ Z) [] rfl
      rw [List.append_nil] at this
      rw [this]
      simpa using hM1
    rw [hrowstage]
    have hMrect : ∀ r ∈ (r0 :: t).map (fun r => r ++ List.replicate dc 0),
        nx + dc ≤ r.length := by
      intro r' hr'
      simp only [List.mem_map] at hr'
      obtain ⟨r, hr, rfl⟩ := hr'
      rw [List.length_append, hrect r hr, List.length_replicate]
    rw [eraseColLoop_eq tol (nx + dc) _ hMrect]
    have hcolval : ∀ j, colAbsSum ((r0 :: t).map (fun r => r ++ List.replicate dc 0)) j =
        (if j < nx then colAbsSum (r0 :: t) j else 0) := by
      intro j
      unfold colAbsSum
      rw [List.map_map]
      split
      · refine congrArg List.sum (List.map_congr_left (fun r hr => ?_))
        simp only [Function.comp_def]
        rw [List.getD_append _ _ _ _ (by rw [hrect r hr]; omega)]
      · refine List.sum_eq_zero (fun v hv => ?_)
        simp only [List.mem_map, Function.comp_def] at hv
        obtain ⟨r, hr, rfl⟩ := hv
        rw [List.getD_append_right _ _ _ _ (by rw [hrect r hr]; omega),
          getD_replicate_zero]
        simp
    have hfil : (List.range (nx + dc)).filter (fun j =>
        !decide (colAbsSum ((r0 :: t).map (fun r => r ++ List.replicate dc 0)) j < tol)) =
        List.range nx := by
      rw [List.range_add, List.filter_append]
      have h1 : (List.range nx).filter (fun j =>
          !decide (colAbsSum ((r0 :: t).map (fun r => r ++ List.replicate dc 0)) j < tol)) =
          List.range nx := by
        rw [List.filter_eq_self]
        intro j hj
        rw [hcolval j, if_pos (List.mem_range.1 hj)]
        simpa using hcols j (List.mem_range.1 hj)
      have h2 : ((List.range dc).map (fun i => nx + i)).filter (fun j =>
          !decide (colAbsSum ((r0 :: t).map (fun r => r ++ List.replicate dc 0)) j < tol)) =
          [] := by
        rw [List.filter_eq_nil_iff]
        intro j hj
        simp only [List.mem_map] at hj
        obtain ⟨i, _, rfl⟩ := hj
        rw [hcolval (nx + i), if_neg (by omega)]
        simpa using htol
      rw [h1, h2, List.append_nil]
    rw [hfil, List.map_map]
    conv_rhs => rw [← List.map_id (r0 :: t)]
    refine List.map_congr_left (fun r hr => ?_)
    simp only [Function.comp_def, id]
    have hrlen : r.length = nx := hrect r hr
    rw [List.drop_eq_nil_of_le (by rw [List.length_append, hrlen, List.length_replicate])]
    rw [List.append_nil]
    have : (List.range nx).map (fun j => (r ++ List.replicate dc 0).getD j 0) =
        (List.range nx).map (fun j => r.getD j 0) := by
      refine List.map_congr_left (fun j hj => ?_)
      rw [List.getD_append _ _ _ _ (by rw [hrlen]; exact List.mem_range.1 hj)]
    rw [this, ← hrlen, map_getD_range_self]

/-- C9 counterexample: `[[0], [1]]` has no trailing near-zero rows or
columns, yet after row-padding against a 3×1 matrix, trimming does not
recover it — the leading zero row is removed along with the padding. -/
theorem zero_padding_roundtrip_fails :
    zero_padding ([[0], [1]] : Mat ℚ) [[1], [1], [1]] true false false =
      some ([[0], [1], [0]], [[1], [1], [1]]) ∧
    hide_zero_padding qtol ([[0], [1], [0]] : Mat ℚ) = [[1]] ∧
    ([[1]] : Mat ℚ) ≠ [[0], [1]] := by
  refine ⟨?_, ?_, by decide⟩
  · norm_num [zero_padding, padRowsTo, padColsTo, shape, numCols, numRows,
      List.replicate]
  · norm_num [hide_zero_padding, eraseRowLoop, eraseColLoop, rowAbsSum, colAbsSum, numCols,
      numRows, qtol, List.range, List.range.loop, List.getD, List.getElem?_cons_zero,
      List.getElem?_cons_succ, List.getElem?_nil]

/-- C9 (amended): the pad/trim round trip recovers the original matrix
whenever the original is rectangular and has no all-near-zero rows and no
all-near-zero columns anywhere (not merely no trailing ones): every
`zero_padding` output is the original extended by zero columns and all-zero
rows, and `hide_zero_padding` removes exactly those. -/
theorem zero_padding_roundtrip {α : Type} [LinearOrderedField α] (tol : α) (htol : 0 < tol)
    (x1 x2 : Mat α) (row column square : Bool) (y1 y2 : Mat α)
    (h : zero_padding x1 x2 row column square = some (y1, y2)) :
    ((∀ r ∈ x1, r.length = numCols x1) → (∀ r ∈ x1, ¬rowAbsSum r < tol) →
      (∀ j < numCols x1, ¬colAbsSum x1 j < tol) → hide_zero_padding tol y1 = x1) ∧
    ((∀ r ∈ x2, r.length = numCols x2) → (∀ r ∈ x2, ¬rowAbsSum r < tol) →
      (∀ j < numCols x2, ¬colAbsSum x2 j < tol) → hide_zero_padding tol y2 = x2) := by
  obtain ⟨hp1, hp2⟩ := zero_padding_paddedFrom h
  exact ⟨fun hrect hrows hcols => hide_zero_padding_of_padded htol hrect hrows hcols hp1,
    fun hrect hrows hcols => hide_zero_padding_of_padded htol hrect hrows hcols hp2⟩

/-- Witness: a concrete round trip through row-and-column padding. -/
theorem zero_padding_roundtrip_witness :
    hide_zero_padding qtol ([[1, 2], [0, 0], [0, 0]] : Mat ℚ) = [[1, 2]] ∧
    hide_zero_padding qtol ([[3, 0], [4, 0], [5, 0]] : Mat ℚ) = [[3], [4], [5]] := by
  have h := zero_padding_roundtrip qtol (by norm_num [qtol]) [[1, 2]] [[3], [4], [5]]
    true true false [[1, 2], [0, 0], [0, 0]] [[3, 0], [4, 0], [5, 0]]
    (by norm_num [zero_padding, padRowsTo, padColsTo, shape, numCols, numRows,
      List.replicate])
  constructor
  · refine h.1 (by decide) ?_ ?_
    · intro r hr
      have : r = [(1 : ℚ), 2] := by simpa using hr
      subst this
      norm_num [rowAbsSum, qtol]
    · intro j hj
      norm_num [numCols] at hj
      interval_cases j <;> norm_num [colAbsSum, qtol, List.getD]
  · refine h.2 (by decide) ?_ ?_
    · intro r hr
      simp only [List.mem_cons, List.not_mem_nil, or_false] at hr
      rcases hr with rfl | rfl | rfl <;> norm_num [rowAbsSum, qtol]
    · intro j hj
      have hj0 : j = 0 := by simp [numCols] at hj; omega
      subst hj0
      norm_num [colAbsSum, qtol, List.getD]

/-! ### Frobenius scaling (`scale_array`) -/

lemma list_sum_div {α : Type} [LinearOrderedField α] {β : Type} (l : List β) (g : β → α)
    (d : α) : (l.map (fun x => g x / d)).sum = (l.map g).sum / d := by
  induction l with
  | nil => simp
  | cons x t ih => simp [ih, add_div]

lemma frobSq_map_div {α : Type} [LinearOrderedField α] (M : Mat α) (c : α) :
    frobSq (M.map (fun r => r.map (fun x => x / c))) = frobSq M / (c * c) := by
  unfold frobSq
  rw [List.map_map]
  have hinner : ∀ r : List α, (((r.map (fun x => x / c)).map (fun x => x * x)).sum) =
      ((r.map (fun x => x * x)).sum) / (c * c) := by
    intro r
    rw [List.map_map]
    have : ((fun x => x * x) ∘ fun x => x / c) = fun x => (x * x) / (c * c) := by
      funext x
      show x / c * (x / c) = x * x / (c * c)
      rw [div_mul_div_comm]
    rw [this]
    exact list_sum_div r (fun x => x * x) (c * c)
  calc (M.map (fun r => ((r.map (fun x => x / c)).map (fun x => x * x)).sum)).sum
      = (M.map (fun r => ((r.map (fun x => x * x)).sum) / (c * c))).sum := by
        refine congrArg List.sum (List.map_congr_left (fun r _ => ?_))
        exact hinner r
    _ = (M.map (fun r => (r.map (fun x => x * x)).sum)).sum / (c * c) :=
        list_sum_div M (fun r => (r.map (fun x => x * x)).sum) (c * c)

lemma frobSq_nonneg {α : Type} [LinearOrderedField α] (M : Mat α) : 0 ≤ frobSq M := by
  unfold frobSq
  refine List.sum_nonneg (fun x hx => ?_)
  simp only [List.mem_map] at hx
  obtain ⟨r, _, rfl⟩ := hx
  refine List.sum_nonneg (fun y hy => ?_)
  simp only [List.mem_map] at hy
  obtain ⟨v, _, rfl⟩ := hy
  exact mul_self_nonneg v

/-- C8 counterexample: at the zero matrix (Frobenius norm 0) `scale_array`
raises nothing: the divisions are performed unconditionally and a result
pair is returned (in floating point the entries are `nan` and the scaling
`inf`; in the exact embedding, division by zero yields the junk value 0). -/
theorem scale_array_zero_norm_returns :
    frobenius_norm Real.sqrt ([[(0 : ℝ)]] : Mat ℝ) = 0 ∧
    scale_array Real.sqrt ([[(0 : ℝ)]] : Mat ℝ) none = ([[0]], 0) := by
  have h0 : frobenius_norm Real.sqrt ([[(0 : ℝ)]] : Mat ℝ) = 0 := by
    unfold frobenius_norm frobSq
    norm_num
  refine ⟨h0, ?_⟩
  unfold scale_array
  rw [h0]
  norm_num

/-- C8 (amended): with no reference matrix, `scale_array` divides every
entry by the Frobenius norm and returns the scaled matrix with the factor
`1/‖M‖`; when the norm is nonzero the result has unit Frobenius norm.  No
zero-norm check is performed: at `‖M‖ = 0` the function still returns a
(junk-valued) pair rather than raising a degenerate-input error. -/
theorem scale_array_unit_norm (M : Mat ℝ) (hfn : frobenius_norm Real.sqrt M ≠ 0) :
    scale_array Real.sqrt M none =
      (M.map (fun r => r.map (fun x => x / frobenius_norm Real.sqrt M)),
        1 / frobenius_norm Real.sqrt M) ∧
    frobenius_norm Real.sqrt (scale_array Real.sqrt M none).1 = 1 := by
  refine ⟨rfl, ?_⟩
  have hsq : 0 ≤ frobSq M := frobSq_nonneg M
  have hfs : frobSq M ≠ 0 := by
    intro hc
    apply hfn
    unfold frobenius_norm
    rw [hc, Real.sqrt_zero]
  show Real.sqrt (frobSq (M.map (fun r => r.map
    (fun x => x / frobenius_norm Real.sqrt M)))) = 1
  rw [frobSq_map_div]
  unfold frobenius_norm
  rw [Real.mul_self_sqrt hsq, div_self hfs, Real.sqrt_one]

/-- Witness: the `3-4-5` matrix is scaled to unit norm. -/
theorem scale_array_unit_norm_witness :
    scale_array Real.sqrt ([[3, 4]] : Mat ℝ) none =
      (([[3, 4]] : Mat ℝ).map (fun r => r.map
        (fun x => x / frobenius_norm Real.sqrt [[3, 4]])),
        1 / frobenius_norm Real.sqrt [[3, 4]]) ∧
    frobenius_norm Real.sqrt (scale_array Real.sqrt ([[3, 4]] : Mat ℝ) none).1 = 1 := by
  have h5 : frobenius_norm Real.sqrt ([[3, 4]] : Mat ℝ) = 5 := by
    unfold frobenius_norm frobSq
    norm_num
    rw [show (25 : ℝ) = 5 ^ 2 by norm_num, Real.sqrt_sq (by norm_num : (0 : ℝ) ≤ 5)]
  exact scale_array_unit_norm [[3, 4]] (by rw [h5]; norm_num)

/-! ### The generic solver: pseudo-inverse normal equations -/

lemma dotList_eq_sum {α : Type} [LinearOrderedField α] :
    ∀ (r : List α) (c : List α) (p : ℕ), r.length = p → c.length = p →
    dotList r c = ∑ k ∈ Finset.range p, r.getD k 0 * c.getD k 0 := by
  intro r
  induction r with
  | nil =>
    intro c p hr hc
    subst hr
    simp [dotList]
  | cons x r' ih =>
    intro c p hr hc
    rcases c with _ | ⟨y, c'⟩
    · rw [← hr] at hc
      simp at hc
    · rcases p with _ | p'
      · simp at hr
      · simp only [dotList, List.zipWith_cons_cons, List.sum_cons]
        rw [Finset.sum_range_succ']
        simp only [List.getD_cons_succ, List.getD_cons_zero]
        have hr' : r'.length = p' := by simpa using hr
        have hc' : c'.length = p' := by simpa using hc
        have := ih c' p' hr' hc'
        rw [dotList] at this
        rw [this, add_comm]

lemma matMul_length {α : Type} [LinearOrderedField α] (A B : Mat α) :
    (matMul A B).length = A.length := by simp [matMul]

lemma matMul_rows {α : Type} [LinearOrderedField α] (A B : Mat α) :
    ∀ r ∈ matMul A B, r.length = numCols B := by
  intro r hr
  simp only [matMul, List.mem_map] at hr
  obtain ⟨r0, _, rfl⟩ := hr
  simp

lemma numCols_matMul_pos {α : Type} [LinearOrderedField α] {A : Mat α} (B : Mat α)
    (hA : 0 < A.length) : numCols (matMul A B) = numCols B := by
  rcases A with _ | ⟨r0, t⟩
  · simp at hA
  · simp [matMul, numCols]

lemma transposeM_length {α : Type} [LinearOrderedField α] (M : Mat α) :
    (transposeM M).length = numCols M := by simp [transposeM]

lemma transposeM_rows {α : Type} [LinearOrderedField α] (M : Mat α) :
    ∀ r ∈ transposeM M, r.length = M.length := by
  intro r hr
  simp only [transposeM, List.mem_map] at hr
  obtain ⟨j, _, rfl⟩ := hr
  simp [colOf]

lemma toM_matMul {α : Type} [LinearOrderedField α] {m p n : ℕ} {A B : Mat α}
    (hA : A.length = m) (hAr : ∀ r ∈ A, r.length = p) (hB : B.length = p)
    (hBc : numCols B = n) : toM m n (matMul A B) = toM m p A * toM p n B := by
  funext i j
  have hi : (i : ℕ) < A.length := by omega
  have hrowmem : A.getD i.val [] ∈ A := by
    rw [List.getD_eq_getElem _ _ hi]
    exact List.getElem_mem _
  show ((matMul A B).getD i.val []).getD j.val 0 = _
  have h1 : (matMul A B).getD i.val [] =
      (List.range (numCols B)).map (fun jj => dotList (A.getD i.val []) (colOf B jj)) := by
    unfold matMul
    rw [List.getD_eq_getElem _ _ (by simpa using hi), List.getElem_map,
      ← List.getD_eq_getElem _ [] hi]
  rw [h1, hBc, getD_map_range _ j.isLt]
  rw [dotList_eq_sum (A.getD i.val []) (colOf B j.val) p (hAr _ hrowmem) (by simp [colOf, hB])]
  have h2 : ∀ k < p, (colOf B j.val).getD k 0 = (B.getD k []).getD j.val 0 := by
    intro k hk
    unfold colOf
    rw [List.getD_eq_getElem _ _ (by simp [hB]; omega), List.getElem_map,
      ← List.getD_eq_getElem _ [] (by omega)]
  have h4 : ∑ k ∈ Finset.range p, (A.getD i.val []).getD k 0 * (colOf B j.val).getD k 0 =
      ∑ k ∈ Finset.range p, (A.getD i.val []).getD k 0 * (B.getD k []).getD j.val 0 :=
    Finset.sum_congr rfl (fun k hk => by rw [h2 k (Finset.mem_range.1 hk)])
  rw [h4, Matrix.mul_apply,
    ← Fin.sum_univ_eq_sum_range (fun k => (A.getD i.val []).getD k 0 * (B.getD k []).getD j.val 0) p]
  rfl

open Matrix in
lemma toM_transpose {α : Type} [LinearOrderedField α] {m n : ℕ} {M : Mat α}
    (hM : M.length = m) (hMc : numCols M = n) :
    toM n m (transposeM M) = (toM m n M)ᵀ := by
  funext j i
  show ((transposeM M).getD j.val []).getD i.val 0 = ((M.getD i.val []).getD j.val 0)
  have hj : (j : ℕ) < numCols M := by omega
  have h1 : (transposeM M).getD j.val [] = colOf M j.val := by
    unfold transposeM
    rw [List.getD_eq_getElem _ _ (by simpa using hj), List.getElem_map]
    simp
  rw [h1]
  unfold colOf
  rw [List.getD_eq_getElem _ _ (by simp; omega), List.getElem_map,
    ← List.getD_eq_getElem _ [] (by omega)]

lemma toM_inj {α : Type} [LinearOrderedField α] {m n : ℕ} {M N : Mat α}
    (hM : M.length = m) (hMr : ∀ r ∈ M, r.length = n)
    (hN : N.length = m) (hNr : ∀ r ∈ N, r.length = n)
    (h : toM m n M = toM m n N) : M = N := by
  refine List.ext_getElem (by omega) (fun i h1 h2 => ?_)
  have hMi : M[i] ∈ M := List.getElem_mem _
  have hNi : N[i] ∈ N := List.getElem_mem _
  refine List.ext_getElem (by rw [hMr _ hMi, hNr _ hNi]) (fun j hj1 hj2 => ?_)
  have hin : i < m := by omega
  have hjn : j < n := by rw [hMr _ hMi] at hj1; exact hj1
  have he := congrFun (congrFun h ⟨i, hin⟩) ⟨j, hjn⟩
  show M[i][j] = N[i][j]
  have hL : (M.getD i []).getD j 0 = M[i][j] := by
    rw [List.getD_eq_getElem _ [] h1, List.getD_eq_getElem _ _ hj1]
  have hR : (N.getD i []).getD j 0 = N[i][j] := by
    rw [List.getD_eq_getElem _ [] h2, List.getD_eq_getElem _ _ hj2]
  rw [← hL, ← hR]
  exact he

open Matrix in
lemma matrix_mp_unique {α : Type} [LinearOrderedField α] {n : ℕ}
    (A G G' : Matrix (Fin n) (Fin n) α)
    (hG1 : A * G * A = A) (hG2 : G * A * G = G)
    (hG3 : (A * G)ᵀ = A * G) (hG4 : (G * A)ᵀ = G * A)
    (hG'1 : A * G' * A = A) (hG'2 : G' * A * G' = G')
    (hG'3 : (A * G')ᵀ = A * G') (hG'4 : (G' * A)ᵀ = G' * A) : G = G' := by
  have key1 : A * G = A * G' := by
    calc A * G = (A * G)ᵀ := hG3.symm
      _ = Gᵀ * Aᵀ := Matrix.transpose_mul A G
      _ = Gᵀ * (A * G' * A)ᵀ := by rw [hG'1]
      _ = Gᵀ * (Aᵀ * (A * G')ᵀ) := by rw [Matrix.transpose_mul (A * G') A]
      _ = Gᵀ * (Aᵀ * (A * G')) := by rw [hG'3]
      _ = (Gᵀ * Aᵀ) * (A * G') := by rw [Matrix.mul_assoc]
      _ = (A * G)ᵀ * (A * G') := by rw [Matrix.transpose_mul A G]
      _ = (A * G) * (A * G') := by rw [hG3]
      _ = ((A * G) * A) * G' := by simp only [Matrix.mul_assoc]
      _ = A * G' := by rw [hG1]
  have key2 : G * A = G' * A := by
    calc G * A = (G * A)ᵀ := hG4.symm
      _ = Aᵀ * Gᵀ := Matrix.transpose_mul G A
      _ = (A * G' * A)ᵀ * Gᵀ := by rw [hG'1]
      _ = (A * (G' * A))ᵀ * Gᵀ := by rw [Matrix.mul_assoc]
      _ = ((G' * A)ᵀ * Aᵀ) * Gᵀ := by rw [Matrix.transpose_mul A (G' * A)]
      _ = ((G' * A) * Aᵀ) * Gᵀ := by rw [hG'4]
      _ = (G' * A) * (Aᵀ * Gᵀ) := by rw [Matrix.mul_assoc]
      _ = (G' * A) * (G * A)ᵀ := by rw [Matrix.transpose_mul G A]
      _ = (G' * A) * (G * A) := by rw [hG4]
      _ = G' * (A * (G * A)) := by rw [Matrix.mul_assoc]
      _ = G' * (A * G * A) := by rw [Matrix.mul_assoc A G A]
      _ = G' * A := by rw [hG1]
  calc G = G * A * G := hG2.symm
    _ = (G' * A) * G := by rw [key2]
    _ = G' * (A * G) := by rw [Matrix.mul_assoc]
    _ = G' * (A * G') := by rw [key1]
    _ = G' * A * G' := by rw [Matrix.mul_assoc]
    _ = G' := hG'2

open Matrix in
lemma isMoorePenrose_unique {α : Type} [LinearOrderedField α] {n : ℕ} {A G G' : Mat α}
    (hA : A.length = n) (hAr : ∀ r ∈ A, r.length = n) (hAc : numCols A = n)
    (hG : IsMoorePenrose n A G) (hG' : IsMoorePenrose n A G') : G = G' := by
  rcases Nat.eq_zero_or_pos n with rfl | hn
  · rw [List.length_eq_zero.1 hG.1, List.length_eq_zero.1 hG'.1]
  · obtain ⟨hGl, hGr, hG1, hG2, hG3, hG4⟩ := hG
    obtain ⟨hG'l, hG'r, hG'1, hG'2, hG'3, hG'4⟩ := hG'
    have hGc : numCols G = n := by
      rcases G with _ | ⟨g0, gt⟩
      · simp at hGl
        omega
      · simp only [numCols, List.headD_cons]
        exact hGr g0 (List.mem_cons_self _ _)
    have hG'c : numCols G' = n := by
      rcases G' with _ | ⟨g0, gt⟩
      · simp at hG'l
        omega
      · simp only [numCols, List.headD_cons]
        exact hG'r g0 (List.mem_cons_self _ _)
    have hApos : 0 < A.length := by omega
    have hGpos : 0 < G.length := by omega
    have hG'pos : 0 < G'.length := by omega
    -- transfer every Penrose identity through `toM`
    have tAG : toM n n (matMul A G) = toM n n A * toM n n G :=
      toM_matMul hA hAr hGl hGc
    have tGA : toM n n (matMul G A) = toM n n G * toM n n A :=
      toM_matMul hGl hGr hA hAc
    have tAG' : toM n n (matMul A G') = toM n n A * toM n n G' :=
      toM_matMul hA hAr hG'l hG'c
    have tG'A : toM n n (matMul G' A) = toM n n G' * toM n n A :=
      toM_matMul hG'l hG'r hA hAc
    have e1 : toM n n A * toM n n G * toM n n A = toM n n A := by
      have := congrArg (toM n n) hG1
      rwa [toM_matMul (by rw [matMul_length, hA]) (fun r hr => by
          rw [matMul_rows A G r hr, hGc]) hA hAc, tAG] at this
    have e2 : toM n n G * toM n n A * toM n n G = toM n n G := by
      have := congrArg (toM n n) hG2
      rwa [toM_matMul (by rw [matMul_length, hGl]) (fun r hr => by
          rw [matMul_rows G A r hr, hAc]) hGl hGc, tGA] at this
    have e3 : (toM n n A * toM n n G)ᵀ = toM n n A * toM n n G := by
      have := congrArg (toM n n) hG3
      rwa [toM_transpose (by rw [matMul_length, hA]) (by rw [numCols_matMul_pos G hApos, hGc]),
        tAG] at this
    have e4 : (toM n n G * toM n n A)ᵀ = toM n n G * toM n n A := by
      have := congrArg (toM n n) hG4
      rwa [toM_transpose (by rw [matMul_length, hGl]) (by rw [numCols_matMul_pos A hGpos, hAc]),
        tGA] at this
    have e'1 : toM n n A * toM n n G' * toM n n A = toM n n A := by
      have := congrArg (toM n n) hG'1
      rwa [toM_matMul (by rw [matMul_length, hA]) (fun r hr => by
          rw [matMul_rows A G' r hr, hG'c]) hA hAc, tAG'] at this
    have e'2 : toM n n G' * toM n n A * toM n n G' = toM n n G' := by
      have := congrArg (toM n n) hG'2
      rwa [toM_matMul (by rw [matMul_length, hG'l]) (fun r hr => by
          rw [matMul_rows G' A r hr, hAc]) hG'l hG'c, tG'A] at this
    have e'3 : (toM n n A * toM n n G')ᵀ = toM n n A * toM n n G' := by
      have := congrArg (toM n n) hG'3
      rwa [toM_transpose (by rw [matMul_length, hA])
        (by rw [numCols_matMul_pos G' hApos, hG'c]), tAG'] at this
    have e'4 : (toM n n G' * toM n n A)ᵀ = toM n n G' * toM n n A := by
      have := congrArg (toM n n) hG'4
      rwa [toM_transpose (by rw [matMul_length, hG'l])
        (by rw [numCols_matMul_pos A hG'pos, hAc]), tG'A] at this
    exact toM_inj hGl hGr hG'l hG'r
      (matrix_mp_unique (toM n n A) (toM n n G) (toM n n G') e1 e2 e3 e4 e'1 e'2 e'3 e'4)

/-- C1: for either recognized driver, whenever the driver's pseudo-inverse
routine returns a matrix satisfying the four Penrose conditions for
`new_aᵀ·new_a`, `generic` returns a `ProcrustesResult` whose transformation
is `T* = (new_aᵀ·new_a)⁺ · new_aᵀ · new_b` — the normal-equations solution,
well defined because the Moore-Penrose pseudo-inverse is unique — and whose
error is the squared Frobenius norm `‖new_a·T* − new_b‖²` computed on the
preprocessed matrices. -/
theorem generic_pinv_normal_equations {α : Type} [LinearOrderedField α]
    (sqrtF : α → α) (pinv_gesvd pinv_gesdd : Mat α → Mat α) (a b : Mat α)
    (pad translate scale unpad_col unpad_row : Bool) (weight : Option (List α))
    (lapack_driver : String) (new_a new_b G : Mat α)
    (hpre : genericPre sqrtF a b pad translate scale unpad_col unpad_row weight =
      (new_a, new_b))
    (hdrv : lapack_driver = "gesvd" ∨ lapack_driver = "gesdd")
    (hrows : numRows new_a = numRows new_b)
    (hmp : IsMoorePenrose (numCols new_a) (matMul (transposeM new_a) new_a)
      ((if lapack_driver = "gesvd" then pinv_gesvd else pinv_gesdd)
        (matMul (transposeM new_a) new_a)))
    (hG : IsMoorePenrose (numCols new_a) (matMul (transposeM new_a) new_a) G) :
    generic sqrtF pinv_gesvd pinv_gesdd a b
        pad translate scale unpad_col unpad_row weight lapack_driver =
      .ok ⟨frobSq (matSub
              (matMul new_a (matMul (matMul G (transposeM new_a)) new_b)) new_b),
            new_a, new_b, matMul (matMul G (transposeM new_a)) new_b, none⟩ := by
  set AtA := matMul (transposeM new_a) new_a with hAtA
  have hAl : AtA.length = numCols new_a := by
    rw [hAtA, matMul_length, transposeM_length]
  have hAr : ∀ r ∈ AtA, r.length = numCols new_a := fun r hr =>
    matMul_rows _ _ r hr
  have hAc : numCols AtA = numCols new_a := by
    rcases Nat.eq_zero_or_pos (numCols new_a) with h0 | hpos
    · have : AtA = [] := List.length_eq_zero.1 (by omega)
      rw [this, h0]
      rfl
    · exact numCols_matMul_pos new_a (by rw [transposeM_length]; omega)
  rcases hdrv with h | h <;> subst h
  · have hEq : pinv_gesvd AtA = G := by
      refine isMoorePenrose_unique hAl hAr hAc ?_ hG
      simpa using hmp
    simp only [generic, hpre, compute_error, hEq]
    rfl
  · have hEq : pinv_gesdd AtA = G := by
      refine isMoorePenrose_unique hAl hAr hAc ?_ hG
      simpa using hmp
    simp only [generic, hpre, compute_error, hEq]
    rfl

/-- Closed witness for C1: the 1×1 instance `a = b = [[1]]` with every
preprocessing flag off, driver `"gesvd"`, and pseudo-inverse `[[1]]`. -/
theorem generic_pinv_normal_equations_witness :
    generic (id : ℚ → ℚ) (fun _ => [[(1 : ℚ)]]) (fun _ => []) [[(1 : ℚ)]] [[(1 : ℚ)]]
        false false false false false none "gesvd" =
      .ok ⟨frobSq (matSub
              (matMul [[(1 : ℚ)]]
                (matMul (matMul [[(1 : ℚ)]] (transposeM [[(1 : ℚ)]])) [[(1 : ℚ)]]))
              [[(1 : ℚ)]]),
            [[(1 : ℚ)]], [[(1 : ℚ)]],
            matMul (matMul [[(1 : ℚ)]] (transposeM [[(1 : ℚ)]])) [[(1 : ℚ)]], none⟩ :=
  generic_pinv_normal_equations id (fun _ => [[(1 : ℚ)]]) (fun _ => [])
    [[(1 : ℚ)]] [[(1 : ℚ)]] false false false false false none "gesvd"
    [[(1 : ℚ)]] [[(1 : ℚ)]] [[(1 : ℚ)]]
    (by norm_num [genericPre, setup_input_arrays])
    (Or.inl rfl)
    rfl
    (by norm_num [IsMoorePenrose, matMul, transposeM, colOf, dotList, numCols,
      numRows, List.range, List.range.loop])
    (by norm_num [IsMoorePenrose, matMul, transposeM, colOf, dotList, numCols,
      numRows, List.range, List.range.loop])

end Procrustes
